import Mathlib

/-!
Verification of the temporal snapshot-assignment core of the
wikipedia-graphsnapshot repository, a shallow embedding of
graphsnapshot/processors/snapshot_extractor.py (function process_lines),
together with theorems settling the specified properties.

Modelling conventions:
* Timestamps are Nat: the source compares arrow instants only with a total
  order, so any linearly ordered carrier is faithful; EPOCH is the least
  instant.
* Page ids and titles are Nat: the source stores them as CSV strings and
  only ever compares page ids for equality.
* An input line is an Option Page: some pg is a row that the csv parser
  turns into a Page record, none is a row on which parsing raises
  (csv.Error / TypeError), which the source catches and skips via continue.
* The source is a Python generator containing loops that do not always
  terminate (the outer sweep loop never advances j once the timestamp
  cursor i is exhausted, and the trailing end-of-stream iteration loops on
  a malformed final row or an empty input).  Every function here therefore
  returns a Bool alongside the state: true means the Python loop finishes,
  false means the Python code loops forever after having emitted exactly
  the pairs accumulated in the returned state.
* Each while loop is embedded as structural recursion on an exact fuel:
  the fuel of the inner loop is the number of timestamps not yet examined
  (every non-break iteration advances i by one), the fuel of the outer
  loop is the number of revisions not yet consumed (every break advances j
  by one, and an iteration that does not break either ends the loop or
  repeats forever, which is reported via the Bool instead of recursing).
  The wrappers innerLoop and outerLoop always supply the exact measure, so
  the fuel-zero base cases coincide with the loop conditions failing.
* The timestamps list is threaded through every state so that the frame
  property (the sweep never mutates it) is expressible.
-/

/-- Revision record: one saved edit of one page (source lines 68-72).
The source declares id and parent_id as int; it actually stores the raw
CSV strings, but only the timestamp is ever interpreted. -/
structure Revision where
  id : Nat
  parent_id : Int
  timestamp : Nat
deriving Repr, DecidableEq

/-- Page record built from one parsed CSV row (source lines 75-79, 193-199). -/
structure Page where
  id : Nat
  title : Nat
  revision : Revision
deriving Repr, DecidableEq

/-- Timestamp of a page record's revision. -/
def revTs (p : Page) : Nat := p.revision.timestamp

/-- The epoch instant, arrow.get(datetime.fromtimestamp(0)) (source line 33):
the least timestamp.  It is bound to pt when there is no previous revision
but never compared in that branch. -/
def EPOCH : Nat := 0

/-- State of the per-page two-pointer sweep (source lines 241-313):
cursor i into timestamps, cursor j into the sorted revision list, the
candidate previous revision, and the pairs yielded so far. -/
structure SweepState where
  timestamps : List Nat
  i : Nat
  j : Nat
  prevpage : Option Page
  out : List (Page × Nat)
deriving Repr, DecidableEq

/-- The inner while loop of the sweep (source lines 250-313), by structural
recursion on the number of timestamps not yet examined.  Arguments page,
ct and pt are the values computed at the head of the outer loop (lines
245-248); the source does not recompute them when j or prevpage change
inside the inner loop.  Returns the final state and whether the loop ended
with break (true) or by exhausting i (false). -/
def innerLoopFuel (sorted : List Page) (page : Page) (ct pt : Nat) :
    Nat → SweepState → SweepState × Bool
  | 0, s => (s, false)
  | n + 1, s =>
    if h : s.i < s.timestamps.length then
      let ts := s.timestamps.get ⟨s.i, h⟩
      match s.prevpage with
      | none =>
        if ct > ts then
          innerLoopFuel sorted page ct pt n { s with i := s.i + 1 }
        else
          if s.j + 1 < sorted.length then
            ({ s with j := s.j + 1, prevpage := some page }, true)
          else
            innerLoopFuel sorted page ct pt n
              { s with i := s.i + 1, j := s.j + 1, prevpage := some page,
                       out := s.out ++ [(page, ts)] }
      | some prev =>
        if pt > ts then
          innerLoopFuel sorted page ct pt n { s with i := s.i + 1 }
        else if ct > ts then
          innerLoopFuel sorted page ct pt n
            { s with i := s.i + 1, out := s.out ++ [(prev, ts)] }
        else
          if s.j + 1 < sorted.length then
            ({ s with j := s.j + 1, prevpage := some page }, true)
          else
            innerLoopFuel sorted page ct pt n
              { s with i := s.i + 1, j := s.j + 1, prevpage := some page,
                       out := s.out ++ [(page, ts)] }
    else (s, false)

/-- The inner while loop entered at state s: the exact fuel is the number
of timestamps not yet examined. -/
def innerLoop (sorted : List Page) (page : Page) (ct pt : Nat)
    (s : SweepState) : SweepState × Bool :=
  innerLoopFuel sorted page ct pt (s.timestamps.length - s.i) s

/-- The previous timestamp pt as computed at the head of the outer loop
(source line 248): the stale previous revision timestamp, or EPOCH when
there is no previous revision. -/
def prevTs : Option Page → Nat
  | some prev => prev.revision.timestamp
  | none => EPOCH

/-- The outer while loop of the sweep (source lines 244-315), by structural
recursion on the number of revisions not yet consumed.  The source
re-enters the inner loop with page, ct and pt recomputed after every
break.  When the inner loop exhausts the timestamps while j is still
inside the sorted list, nothing ever advances j again and the source loops
forever: this is returned as the flag false with the pairs emitted so far,
and no fuel is consumed for it. -/
def outerLoopFuel (sorted : List Page) :
    Nat → SweepState → Bool × SweepState
  | 0, s => (true, s)
  | n + 1, s =>
    if hj : s.j < sorted.length then
      let page := sorted.get ⟨s.j, hj⟩
      let r := innerLoop sorted page page.revision.timestamp (prevTs s.prevpage) s
      if r.2 then outerLoopFuel sorted n r.1
      else
        if r.1.j < sorted.length then (false, r.1)
        else (true, r.1)
    else (true, s)

/-- The outer while loop entered at state s: the exact fuel is the number
of revisions not yet consumed. -/
def outerLoop (sorted : List Page) (s : SweepState) : Bool × SweepState :=
  outerLoopFuel sorted (sorted.length - s.j) s

/-- One full sweep for one sorted page group (source lines 241-243 set
i = 0, j = 0, prevpage = None before the loop). -/
def runSweep (timestamps : List Nat) (sorted : List Page) : Bool × SweepState :=
  outerLoop sorted
    { timestamps := timestamps, i := 0, j := 0, prevpage := none, out := [] }

/-- State of the revision stream reader (source lines 110-121): the
previously read page, the open group of buffered revisions, the pairs
yielded so far, the threaded timestamps list, and a ghost trace of the
sorted groups handed to the sweep. -/
structure ReaderState where
  timestamps : List Nat
  dump_prevpage : Option Page
  page_revisions : List Page
  groups : List (List Page)
  out : List (Page × Nat)
deriving Repr, DecidableEq

/-- Stable insertion of a page into a list sorted by revision timestamp:
the new page goes in front of the first element whose timestamp is not
smaller, so that elements with equal timestamps keep their arrival order,
exactly as Python's stable sorted(key=timestamp) does. -/
def insertByTs (p : Page) : List Page → List Page
  | [] => [p]
  | q :: qs => if revTs q < revTs p then q :: insertByTs p qs else p :: q :: qs

/-- Stable sort of a page group by revision timestamp, the semantics of
sorted(page_revisions, key=lambda pg: pg.revision.timestamp) at source
lines 235-236: a stable sort keyed only on the timestamp. -/
def sortByTs : List Page → List Page
  | [] => []
  | p :: ps => insertByTs p (sortByTs ps)

/-- Processing of one successfully parsed row that is not the trailing
end-of-stream re-read (source lines 201-239): append to the open group
when the page id matches (or there is no previous page), otherwise sort
the open group, sweep it, and start a new group with the current row. -/
def readerStep (s : ReaderState) (pg : Page) : Bool × ReaderState :=
  match s.dump_prevpage with
  | none =>
      (true, { s with dump_prevpage := some pg,
                      page_revisions := s.page_revisions ++ [pg] })
  | some prev =>
      if prev.id = pg.id then
        (true, { s with dump_prevpage := some pg,
                        page_revisions := s.page_revisions ++ [pg] })
      else
        let sorted := sortByTs s.page_revisions
        let r := runSweep s.timestamps sorted
        (r.1, { timestamps := r.2.timestamps,
                dump_prevpage := some pg,
                page_revisions := [pg],
                groups := s.groups ++ [sorted],
                out := s.out ++ r.2.out })

/-- Processing of the trailing end-of-stream iteration on the re-read last
row (source lines 132-134 and 226-318): the is_last_revision branch always
sorts and sweeps the open group, then sets break_flag, discarding the
fresh group [pg]. -/
def readerFinal (s : ReaderState) (pg : Page) : Bool × ReaderState :=
  let sorted := sortByTs s.page_revisions
  let r := runSweep s.timestamps sorted
  (r.1, { timestamps := r.2.timestamps,
          dump_prevpage := some pg,
          page_revisions := [pg],
          groups := s.groups ++ [sorted],
          out := s.out ++ r.2.out })

/-- The main reader loop (source lines 125-321) over the remaining input
lines.  A line that fails to parse is skipped by continue.  When the input
is exhausted, the source re-reads the last pulled line; if that line does
not parse (or the input was empty), the except/continue path repeats
forever, reported as the flag false. -/
def readerLoop (s : ReaderState) : List (Option Page) → Bool × ReaderState
  | [] => (false, s)
  | [l] =>
      match l with
      | none => (false, s)
      | some pg =>
          let r := readerStep s pg
          if r.1 then readerFinal r.2 pg else (false, r.2)
  | l :: l₂ :: rest =>
      match l with
      | none => readerLoop s (l₂ :: rest)
      | some pg =>
          let r := readerStep s pg
          if r.1 then readerLoop r.2 (l₂ :: rest) else (false, r.2)

/-- Full run of process_lines (source lines 94-321) returning the final
reader state.  The dump is the sequence of input lines after the optional
header row (which the skip_header branch consumes before the loop); the
only_last_revision argument is accepted by the source but never used in
the function body. -/
def process_lines_state (dump : List (Option Page)) (timestamps : List Nat)
    (only_last_revision : Bool) : Bool × ReaderState :=
  readerLoop { timestamps := timestamps, dump_prevpage := none,
               page_revisions := [], groups := [], out := [] } dump

/-- Observable behaviour of the process_lines generator: whether the
Python loop terminates, and the list of (page, timestamp) pairs it yields
(all of them, also when the loop then hangs). -/
def process_lines (dump : List (Option Page)) (timestamps : List Nat)
    (only_last_revision : Bool) : Bool × List (Page × Nat) :=
  ((process_lines_state dump timestamps only_last_revision).1,
   (process_lines_state dump timestamps only_last_revision).2.out)

/-- The revision current as of instant t in a timestamp-sorted group: the
last group member whose timestamp is at most t, if any.  This is the
specification value the sweep is meant to emit. -/
def currentRev (sorted : List Page) (t : Nat) : Option Page :=
  (sorted.filter (fun p => revTs p ≤ t)).getLast?

/-- Specification of the full pair sequence of one sweep: for each
snapshot instant in order, the pair of the current revision and the
instant, skipping instants at which the page does not exist yet. -/
def snapshotPairs (sorted : List Page) (timestamps : List Nat) :
    List (Page × Nat) :=
  timestamps.filterMap (fun t => (currentRev sorted t).map (fun p => (p, t)))

/-- Concrete fixture: revision of page 42 saved on 2015-01-10, encoded as
the number 20150110 (any order-embedding of instants is faithful). -/
def revA1 : Revision := { id := 1, parent_id := -1, timestamp := 20150110 }

/-- Concrete fixture: revision of page 42 saved on 2015-03-05. -/
def revA2 : Revision := { id := 2, parent_id := 1, timestamp := 20150305 }

/-- Concrete fixture: page 42 as parsed from the row carrying revA1. -/
def pageA1 : Page := { id := 42, title := 0, revision := revA1 }

/-- Concrete fixture: page 42 as parsed from the row carrying revA2. -/
def pageA2 : Page := { id := 42, title := 0, revision := revA2 }

/-- Concrete fixture: a revision of page 42 with the larger revision id
and timestamp 2015-01-10, arriving first. -/
def pageT2 : Page :=
  { id := 42, title := 0,
    revision := { id := 2, parent_id := 1, timestamp := 20150110 } }

/-- Concrete fixture: the equal-timestamp companion of pageT2 with the
smaller revision id, arriving second. -/
def pageT1 : Page :=
  { id := 42, title := 0,
    revision := { id := 1, parent_id := -1, timestamp := 20150110 } }

/-- Concrete fixture: a revision row of a different page, id 43. -/
def pageB : Page :=
  { id := 43, title := 1,
    revision := { id := 7, parent_id := -1, timestamp := 20150215 } }

/-- Concrete fixture: the four snapshot instants of Scenario A,
2015-01-01, 2015-02-01, 2015-03-01 and 2015-04-01. -/
def scenarioTimestamps : List Nat := [20150101, 20150201, 20150301, 20150401]

/-- The fuel-driven inner loop agrees with the inner loop whenever the
fuel is the exact measure. -/
theorem innerLoopFuel_eq_innerLoop (sorted : List Page) (page : Page)
    (ct pt : Nat) (n : Nat) (s : SweepState)
    (hn : s.timestamps.length - s.i = n) :
    innerLoopFuel sorted page ct pt n s = innerLoop sorted page ct pt s := by
  unfold innerLoop
  rw [hn]

/-- Branch lemma: timestamps exhausted, the inner while condition fails. -/
theorem innerLoop_stop (sorted : List Page) (page : Page) (ct pt : Nat)
    (s : SweepState) (h : ¬ s.i < s.timestamps.length) :
    innerLoop sorted page ct pt s = (s, false) := by
  unfold innerLoop
  rw [show s.timestamps.length - s.i = 0 from by omega]
  rfl

/-- Branch lemma: no previous revision and the candidate revision is later
than the snapshot instant, so the page did not exist yet (lines 256-261). -/
theorem innerLoop_none_skip (sorted : List Page) (page : Page) (ct pt : Nat)
    (s : SweepState) (h : s.i < s.timestamps.length)
    (hprev : s.prevpage = none) (hct : ct > s.timestamps.get ⟨s.i, h⟩) :
    innerLoop sorted page ct pt s =
      innerLoop sorted page ct pt { s with i := s.i + 1 } := by
  obtain ⟨m, hm⟩ : ∃ m, s.timestamps.length - s.i = m + 1 :=
    ⟨s.timestamps.length - s.i - 1, by omega⟩
  rw [show innerLoop sorted page ct pt s
      = innerLoopFuel sorted page ct pt (s.timestamps.length - s.i) s from rfl]
  rw [hm]
  simp only [innerLoopFuel, dif_pos h, hprev]
  rw [if_pos hct]
  exact innerLoopFuel_eq_innerLoop sorted page ct pt m _ (by simp; omega)

/-- Branch lemma: first revision reached at or before the snapshot instant,
with more revisions remaining: advance j and break (lines 264-274). -/
theorem innerLoop_none_break (sorted : List Page) (page : Page) (ct pt : Nat)
    (s : SweepState) (h : s.i < s.timestamps.length)
    (hprev : s.prevpage = none) (hct : ¬ ct > s.timestamps.get ⟨s.i, h⟩)
    (hj : s.j + 1 < sorted.length) :
    innerLoop sorted page ct pt s =
      ({ s with j := s.j + 1, prevpage := some page }, true) := by
  obtain ⟨m, hm⟩ : ∃ m, s.timestamps.length - s.i = m + 1 :=
    ⟨s.timestamps.length - s.i - 1, by omega⟩
  rw [show innerLoop sorted page ct pt s
      = innerLoopFuel sorted page ct pt (s.timestamps.length - s.i) s from rfl]
  rw [hm]
  simp only [innerLoopFuel, dif_pos h, hprev]
  rw [if_neg hct, if_pos hj]

/-- Branch lemma: first revision reached at or before the snapshot instant
and j leaves the list: fall through to the final yield (lines 264-313). -/
theorem innerLoop_none_tail (sorted : List Page) (page : Page) (ct pt : Nat)
    (s : SweepState) (h : s.i < s.timestamps.length)
    (hprev : s.prevpage = none) (hct : ¬ ct > s.timestamps.get ⟨s.i, h⟩)
    (hj : ¬ s.j + 1 < sorted.length) :
    innerLoop sorted page ct pt s =
      innerLoop sorted page ct pt
        { s with i := s.i + 1, j := s.j + 1, prevpage := some page,
                 out := s.out ++ [(page, s.timestamps.get ⟨s.i, h⟩)] } := by
  obtain ⟨m, hm⟩ : ∃ m, s.timestamps.length - s.i = m + 1 :=
    ⟨s.timestamps.length - s.i - 1, by omega⟩
  rw [show innerLoop sorted page ct pt s
      = innerLoopFuel sorted page ct pt (s.timestamps.length - s.i) s from rfl]
  rw [hm]
  simp only [innerLoopFuel, dif_pos h, hprev]
  rw [if_neg hct, if_neg hj]
  exact innerLoopFuel_eq_innerLoop sorted page ct pt m _ (by simp; omega)

/-- Branch lemma: the stale previous timestamp is later than the snapshot
instant, so only i advances (lines 277-282). -/
theorem innerLoop_some_skip (sorted : List Page) (page : Page) (ct pt : Nat)
    (s : SweepState) (prev : Page) (h : s.i < s.timestamps.length)
    (hprev : s.prevpage = some prev) (hpt : pt > s.timestamps.get ⟨s.i, h⟩) :
    innerLoop sorted page ct pt s =
      innerLoop sorted page ct pt { s with i := s.i + 1 } := by
  obtain ⟨m, hm⟩ : ∃ m, s.timestamps.length - s.i = m + 1 :=
    ⟨s.timestamps.length - s.i - 1, by omega⟩
  rw [show innerLoop sorted page ct pt s
      = innerLoopFuel sorted page ct pt (s.timestamps.length - s.i) s from rfl]
  rw [hm]
  simp only [innerLoopFuel, dif_pos h, hprev]
  rw [if_pos hpt]
  exact innerLoopFuel_eq_innerLoop sorted page ct pt m _ (by simp; omega)

/-- Branch lemma: previous revision is in the snapshot, yield it and advance
i (lines 284-295). -/
theorem innerLoop_some_emit (sorted : List Page) (page : Page) (ct pt : Nat)
    (s : SweepState) (prev : Page) (h : s.i < s.timestamps.length)
    (hprev : s.prevpage = some prev) (hpt : ¬ pt > s.timestamps.get ⟨s.i, h⟩)
    (hct : ct > s.timestamps.get ⟨s.i, h⟩) :
    innerLoop sorted page ct pt s =
      innerLoop sorted page ct pt
        { s with i := s.i + 1,
                 out := s.out ++ [(prev, s.timestamps.get ⟨s.i, h⟩)] } := by
  obtain ⟨m, hm⟩ : ∃ m, s.timestamps.length - s.i = m + 1 :=
    ⟨s.timestamps.length - s.i - 1, by omega⟩
  rw [show innerLoop sorted page ct pt s
      = innerLoopFuel sorted page ct pt (s.timestamps.length - s.i) s from rfl]
  rw [hm]
  simp only [innerLoopFuel, dif_pos h, hprev]
  rw [if_neg hpt, if_pos hct]
  exact innerLoopFuel_eq_innerLoop sorted page ct pt m _ (by simp; omega)

/-- Branch lemma: the candidate revision supersedes the previous one with
more revisions remaining: advance j and break (lines 297-306). -/
theorem innerLoop_some_break (sorted : List Page) (page : Page) (ct pt : Nat)
    (s : SweepState) (prev : Page) (h : s.i < s.timestamps.length)
    (hprev : s.prevpage = some prev) (hpt : ¬ pt > s.timestamps.get ⟨s.i, h⟩)
    (hct : ¬ ct > s.timestamps.get ⟨s.i, h⟩) (hj : s.j + 1 < sorted.length) :
    innerLoop sorted page ct pt s =
      ({ s with j := s.j + 1, prevpage := some page }, true) := by
  obtain ⟨m, hm⟩ : ∃ m, s.timestamps.length - s.i = m + 1 :=
    ⟨s.timestamps.length - s.i - 1, by omega⟩
  rw [show innerLoop sorted page ct pt s
      = innerLoopFuel sorted page ct pt (s.timestamps.length - s.i) s from rfl]
  rw [hm]
  simp only [innerLoopFuel, dif_pos h, hprev]
  rw [if_neg hpt, if_neg hct, if_pos hj]

/-- Branch lemma: the candidate revision supersedes the previous one and j
leaves the list: fall through to the final yield (lines 297-313). -/
theorem innerLoop_some_tail (sorted : List Page) (page : Page) (ct pt : Nat)
    (s : SweepState) (prev : Page) (h : s.i < s.timestamps.length)
    (hprev : s.prevpage = some prev) (hpt : ¬ pt > s.timestamps.get ⟨s.i, h⟩)
    (hct : ¬ ct > s.timestamps.get ⟨s.i, h⟩) (hj : ¬ s.j + 1 < sorted.length) :
    innerLoop sorted page ct pt s =
      innerLoop sorted page ct pt
        { s with i := s.i + 1, j := s.j + 1, prevpage := some page,
                 out := s.out ++ [(page, s.timestamps.get ⟨s.i, h⟩)] } := by
  obtain ⟨m, hm⟩ : ∃ m, s.timestamps.length - s.i = m + 1 :=
    ⟨s.timestamps.length - s.i - 1, by omega⟩
  rw [show innerLoop sorted page ct pt s
      = innerLoopFuel sorted page ct pt (s.timestamps.length - s.i) s from rfl]
  rw [hm]
  simp only [innerLoopFuel, dif_pos h, hprev]
  rw [if_neg hpt, if_neg hct, if_neg hj]
  exact innerLoopFuel_eq_innerLoop sorted page ct pt m _ (by simp; omega)

/-- The inner loop never touches the timestamps list, only advances its
cursor i, and when it ends via break it has advanced j exactly once with
the break guard holding and prevpage set to the outer candidate; when it
ends without break the timestamps are exhausted. -/
theorem innerLoop_basic (sorted : List Page) (page : Page) (ct pt : Nat) :
    ∀ s : SweepState,
      (innerLoop sorted page ct pt s).1.timestamps = s.timestamps ∧
      s.i ≤ (innerLoop sorted page ct pt s).1.i ∧
      ((innerLoop sorted page ct pt s).2 = true →
        (innerLoop sorted page ct pt s).1.j = s.j + 1 ∧
        s.j + 1 < sorted.length ∧
        (innerLoop sorted page ct pt s).1.prevpage = some page) ∧
      ((innerLoop sorted page ct pt s).2 = false →
        s.timestamps.length ≤ (innerLoop sorted page ct pt s).1.i) := by
  have key : ∀ (n : Nat) (s : SweepState),
      s.timestamps.length - s.i = n →
      (innerLoop sorted page ct pt s).1.timestamps = s.timestamps ∧
      s.i ≤ (innerLoop sorted page ct pt s).1.i ∧
      ((innerLoop sorted page ct pt s).2 = true →
        (innerLoop sorted page ct pt s).1.j = s.j + 1 ∧
        s.j + 1 < sorted.length ∧
        (innerLoop sorted page ct pt s).1.prevpage = some page) ∧
      ((innerLoop sorted page ct pt s).2 = false →
        s.timestamps.length ≤ (innerLoop sorted page ct pt s).1.i) := by
    intro n
    induction n with
    | zero =>
      intro s hn
      rw [innerLoop_stop sorted page ct pt s (by omega)]
      exact ⟨rfl, le_refl _, by simp, fun _ => show s.timestamps.length ≤ s.i by omega⟩
    | succ n ih =>
      intro s hn
      have h : s.i < s.timestamps.length := by omega
      match hp : s.prevpage with
      | none =>
        by_cases hct : ct > s.timestamps.get ⟨s.i, h⟩
        · rw [innerLoop_none_skip sorted page ct pt s h hp hct]
          have hrec := ih { s with i := s.i + 1 } (by simp; omega)
          have h1 : (innerLoop sorted page ct pt { s with i := s.i + 1 }).1.timestamps
              = s.timestamps := hrec.1
          have h2 : s.i + 1 ≤ (innerLoop sorted page ct pt { s with i := s.i + 1 }).1.i :=
            hrec.2.1
          have h3 : (innerLoop sorted page ct pt { s with i := s.i + 1 }).2 = true →
              (innerLoop sorted page ct pt { s with i := s.i + 1 }).1.j = s.j + 1 ∧
              s.j + 1 < sorted.length ∧
              (innerLoop sorted page ct pt { s with i := s.i + 1 }).1.prevpage
                = some page := hrec.2.2.1
          have h4 : (innerLoop sorted page ct pt { s with i := s.i + 1 }).2 = false →
              s.timestamps.length
                ≤ (innerLoop sorted page ct pt { s with i := s.i + 1 }).1.i := hrec.2.2.2
          exact ⟨h1, by omega, h3, h4⟩
        · by_cases hj : s.j + 1 < sorted.length
          · rw [innerLoop_none_break sorted page ct pt s h hp hct hj]
            exact ⟨rfl, le_refl _, fun _ => ⟨rfl, hj, rfl⟩, by simp⟩
          · rw [innerLoop_none_tail sorted page ct pt s h hp hct hj]
            set y : SweepState :=
              { s with i := s.i + 1, j := s.j + 1, prevpage := some page,
                       out := s.out ++ [(page, s.timestamps.get ⟨s.i, h⟩)] } with hy
            have hrec := ih y (by simp [hy]; omega)
            have h1 : (innerLoop sorted page ct pt y).1.timestamps = s.timestamps := hrec.1
            have h2 : s.i + 1 ≤ (innerLoop sorted page ct pt y).1.i := hrec.2.1
            have h3 : (innerLoop sorted page ct pt y).2 = true →
                (innerLoop sorted page ct pt y).1.j = s.j + 1 + 1 ∧
                s.j + 1 + 1 < sorted.length ∧
                (innerLoop sorted page ct pt y).1.prevpage = some page := hrec.2.2.1
            have h4 : (innerLoop sorted page ct pt y).2 = false →
                s.timestamps.length ≤ (innerLoop sorted page ct pt y).1.i := hrec.2.2.2
            refine ⟨h1, by omega, fun hb => ?_, h4⟩
            exact absurd (h3 hb).2.1 (by omega)
      | some prev =>
        by_cases hpt : pt > s.timestamps.get ⟨s.i, h⟩
        · rw [innerLoop_some_skip sorted page ct pt s prev h hp hpt]
          have hrec := ih { s with i := s.i + 1 } (by simp; omega)
          have h1 : (innerLoop sorted page ct pt { s with i := s.i + 1 }).1.timestamps
              = s.timestamps := hrec.1
          have h2 : s.i + 1 ≤ (innerLoop sorted page ct pt { s with i := s.i + 1 }).1.i :=
            hrec.2.1
          have h3 : (innerLoop sorted page ct pt { s with i := s.i + 1 }).2 = true →
              (innerLoop sorted page ct pt { s with i := s.i + 1 }).1.j = s.j + 1 ∧
              s.j + 1 < sorted.length ∧
              (innerLoop sorted page ct pt { s with i := s.i + 1 }).1.prevpage
                = some page := hrec.2.2.1
          have h4 : (innerLoop sorted page ct pt { s with i := s.i + 1 }).2 = false →
              s.timestamps.length
                ≤ (innerLoop sorted page ct pt { s with i := s.i + 1 }).1.i := hrec.2.2.2
          exact ⟨h1, by omega, h3, h4⟩
        · by_cases hct : ct > s.timestamps.get ⟨s.i, h⟩
          · rw [innerLoop_some_emit sorted page ct pt s prev h hp hpt hct]
            set y : SweepState :=
              { s with i := s.i + 1,
                       out := s.out ++ [(prev, s.timestamps.get ⟨s.i, h⟩)] } with hy
            have hrec := ih y (by simp [hy]; omega)
            have h1 : (innerLoop sorted page ct pt y).1.timestamps = s.timestamps := hrec.1
            have h2 : s.i + 1 ≤ (innerLoop sorted page ct pt y).1.i := hrec.2.1
            have h3 : (innerLoop sorted page ct pt y).2 = true →
                (innerLoop sorted page ct pt y).1.j = s.j + 1 ∧
                s.j + 1 < sorted.length ∧
                (innerLoop sorted page ct pt y).1.prevpage = some page := hrec.2.2.1
            have h4 : (innerLoop sorted page ct pt y).2 = false →
                s.timestamps.length ≤ (innerLoop sorted page ct pt y).1.i := hrec.2.2.2
            exact ⟨h1, by omega, h3, h4⟩
          · by_cases hj : s.j + 1 < sorted.length
            · rw [innerLoop_some_break sorted page ct pt s prev h hp hpt hct hj]
              exact ⟨rfl, le_refl _, fun _ => ⟨rfl, hj, rfl⟩, by simp⟩
            · rw [innerLoop_some_tail sorted page ct pt s prev h hp hpt hct hj]
              set y : SweepState :=
                { s with i := s.i + 1, j := s.j + 1, prevpage := some page,
                         out := s.out ++ [(page, s.timestamps.get ⟨s.i, h⟩)] } with hy
              have hrec := ih y (by simp [hy]; omega)
              have h1 : (innerLoop sorted page ct pt y).1.timestamps = s.timestamps := hrec.1
              have h2 : s.i + 1 ≤ (innerLoop sorted page ct pt y).1.i := hrec.2.1
              have h3 : (innerLoop sorted page ct pt y).2 = true →
                  (innerLoop sorted page ct pt y).1.j = s.j + 1 + 1 ∧
                  s.j + 1 + 1 < sorted.length ∧
                  (innerLoop sorted page ct pt y).1.prevpage = some page := hrec.2.2.1
              have h4 : (innerLoop sorted page ct pt y).2 = false →
                  s.timestamps.length ≤ (innerLoop sorted page ct pt y).1.i := hrec.2.2.2
              refine ⟨h1, by omega, fun hb => ?_, h4⟩
              exact absurd (h3 hb).2.1 (by omega)
  intro s
  exact key (s.timestamps.length - s.i) s rfl

/-- The fuel-driven outer loop agrees with the outer loop whenever the
fuel is the exact measure. -/
theorem outerLoopFuel_eq_outerLoop (sorted : List Page) (n : Nat)
    (s : SweepState) (hn : sorted.length - s.j = n) :
    outerLoopFuel sorted n s = outerLoop sorted s := by
  unfold outerLoop
  rw [hn]

/-- Branch lemma: the outer loop exits when j has left the sorted list. -/
theorem outerLoop_stop (sorted : List Page) (s : SweepState)
    (hj : ¬ s.j < sorted.length) : outerLoop sorted s = (true, s) := by
  unfold outerLoop
  rw [show sorted.length - s.j = 0 from by omega]
  rfl

/-- Branch lemma: after a break the outer loop runs again on the state the
inner loop returned. -/
theorem outerLoop_broke (sorted : List Page) (s : SweepState)
    (hj : s.j < sorted.length)
    (hb : (innerLoop sorted (sorted.get ⟨s.j, hj⟩)
      (sorted.get ⟨s.j, hj⟩).revision.timestamp (prevTs s.prevpage) s).2 = true) :
    outerLoop sorted s = outerLoop sorted
      (innerLoop sorted (sorted.get ⟨s.j, hj⟩)
        (sorted.get ⟨s.j, hj⟩).revision.timestamp (prevTs s.prevpage) s).1 := by
  obtain ⟨m, hm⟩ : ∃ m, sorted.length - s.j = m + 1 :=
    ⟨sorted.length - s.j - 1, by omega⟩
  rw [show outerLoop sorted s = outerLoopFuel sorted (sorted.length - s.j) s from rfl]
  rw [hm]
  simp only [outerLoopFuel, dif_pos hj]
  rw [if_pos hb]
  have hjj := (innerLoop_basic sorted (sorted.get ⟨s.j, hj⟩)
    (sorted.get ⟨s.j, hj⟩).revision.timestamp (prevTs s.prevpage) s).2.2.1 hb
  exact outerLoopFuel_eq_outerLoop sorted m _ (by omega)

/-- Branch lemma: timestamps exhausted with j still inside the sorted
list: the source spins forever in the outer loop. -/
theorem outerLoop_hang (sorted : List Page) (s : SweepState)
    (hj : s.j < sorted.length)
    (hb : (innerLoop sorted (sorted.get ⟨s.j, hj⟩)
      (sorted.get ⟨s.j, hj⟩).revision.timestamp (prevTs s.prevpage) s).2 = false)
    (hlt : (innerLoop sorted (sorted.get ⟨s.j, hj⟩)
      (sorted.get ⟨s.j, hj⟩).revision.timestamp (prevTs s.prevpage) s).1.j
        < sorted.length) :
    outerLoop sorted s = (false,
      (innerLoop sorted (sorted.get ⟨s.j, hj⟩)
        (sorted.get ⟨s.j, hj⟩).revision.timestamp (prevTs s.prevpage) s).1) := by
  obtain ⟨m, hm⟩ : ∃ m, sorted.length - s.j = m + 1 :=
    ⟨sorted.length - s.j - 1, by omega⟩
  rw [show outerLoop sorted s = outerLoopFuel sorted (sorted.length - s.j) s from rfl]
  rw [hm]
  simp only [outerLoopFuel, dif_pos hj]
  rw [if_neg (by rw [hb]; simp), if_pos hlt]

/-- Branch lemma: timestamps exhausted with j past the sorted list: the
outer while condition fails at the next iteration and the sweep ends. -/
theorem outerLoop_done (sorted : List Page) (s : SweepState)
    (hj : s.j < sorted.length)
    (hb : (innerLoop sorted (sorted.get ⟨s.j, hj⟩)
      (sorted.get ⟨s.j, hj⟩).revision.timestamp (prevTs s.prevpage) s).2 = false)
    (hge : ¬ (innerLoop sorted (sorted.get ⟨s.j, hj⟩)
      (sorted.get ⟨s.j, hj⟩).revision.timestamp (prevTs s.prevpage) s).1.j
        < sorted.length) :
    outerLoop sorted s = (true,
      (innerLoop sorted (sorted.get ⟨s.j, hj⟩)
        (sorted.get ⟨s.j, hj⟩).revision.timestamp (prevTs s.prevpage) s).1) := by
  obtain ⟨m, hm⟩ : ∃ m, sorted.length - s.j = m + 1 :=
    ⟨sorted.length - s.j - 1, by omega⟩
  rw [show outerLoop sorted s = outerLoopFuel sorted (sorted.length - s.j) s from rfl]
  rw [hm]
  simp only [outerLoopFuel, dif_pos hj]
  rw [if_neg (by rw [hb]; simp), if_neg hge]

/-- The outer loop never touches the timestamps list. -/
theorem outerLoop_timestamps (sorted : List Page) :
    ∀ s : SweepState, (outerLoop sorted s).2.timestamps = s.timestamps := by
  have key : ∀ (n : Nat) (s : SweepState), sorted.length - s.j = n →
      (outerLoop sorted s).2.timestamps = s.timestamps := by
    intro n
    induction n with
    | zero =>
      intro s hn
      rw [outerLoop_stop sorted s (by omega)]
    | succ n ih =>
      intro s hn
      have hj : s.j < sorted.length := by omega
      cases hb : (innerLoop sorted (sorted.get ⟨s.j, hj⟩)
          (sorted.get ⟨s.j, hj⟩).revision.timestamp (prevTs s.prevpage) s).2 with
      | true =>
        rw [outerLoop_broke sorted s hj hb]
        have hjj := (innerLoop_basic sorted (sorted.get ⟨s.j, hj⟩)
          (sorted.get ⟨s.j, hj⟩).revision.timestamp (prevTs s.prevpage) s).2.2.1 hb
        exact (ih _ (by omega)).trans
          (innerLoop_basic sorted (sorted.get ⟨s.j, hj⟩)
            (sorted.get ⟨s.j, hj⟩).revision.timestamp (prevTs s.prevpage) s).1
      | false =>
        by_cases hlt : (innerLoop sorted (sorted.get ⟨s.j, hj⟩)
            (sorted.get ⟨s.j, hj⟩).revision.timestamp (prevTs s.prevpage) s).1.j
              < sorted.length
        · rw [outerLoop_hang sorted s hj hb hlt]
          exact (innerLoop_basic sorted (sorted.get ⟨s.j, hj⟩)
            (sorted.get ⟨s.j, hj⟩).revision.timestamp (prevTs s.prevpage) s).1
        · rw [outerLoop_done sorted s hj hb hlt]
          exact (innerLoop_basic sorted (sorted.get ⟨s.j, hj⟩)
            (sorted.get ⟨s.j, hj⟩).revision.timestamp (prevTs s.prevpage) s).1
  intro s
  exact key (sorted.length - s.j) s rfl

/-- One sweep run never touches the timestamps list. -/
theorem runSweep_timestamps (timestamps : List Nat) (sorted : List Page) :
    (runSweep timestamps sorted).2.timestamps = timestamps :=
  outerLoop_timestamps sorted _

/-- A reader step never touches the timestamps list. -/
theorem readerStep_timestamps (s : ReaderState) (pg : Page) :
    (readerStep s pg).2.timestamps = s.timestamps := by
  unfold readerStep
  match hp : s.dump_prevpage with
  | none => rfl
  | some prev =>
    by_cases hid : prev.id = pg.id
    · simp only [if_pos hid]
    · simp only [if_neg hid]
      exact runSweep_timestamps s.timestamps (sortByTs s.page_revisions)

/-- The trailing end-of-stream step never touches the timestamps list. -/
theorem readerFinal_timestamps (s : ReaderState) (pg : Page) :
    (readerFinal s pg).2.timestamps = s.timestamps :=
  runSweep_timestamps s.timestamps (sortByTs s.page_revisions)

/-- The reader loop never touches the timestamps list. -/
theorem readerLoop_timestamps :
    ∀ (dump : List (Option Page)) (s : ReaderState),
      (readerLoop s dump).2.timestamps = s.timestamps := by
  intro dump
  induction dump with
  | nil => intro s; rfl
  | cons l rest ih =>
    intro s
    match rest with
    | [] =>
      match l with
      | none => rfl
      | some pg =>
        show (if (readerStep s pg).1 then readerFinal (readerStep s pg).2 pg
              else (false, (readerStep s pg).2)).2.timestamps = s.timestamps
        by_cases hb : (readerStep s pg).1
        · rw [if_pos hb, readerFinal_timestamps, readerStep_timestamps]
        · rw [if_neg hb]
          exact readerStep_timestamps s pg
    | l₂ :: rest₂ =>
      match l with
      | none => exact ih s
      | some pg =>
        show (if (readerStep s pg).1 then readerLoop (readerStep s pg).2 (l₂ :: rest₂)
              else (false, (readerStep s pg).2)).2.timestamps = s.timestamps
        by_cases hb : (readerStep s pg).1
        · rw [if_pos hb, ih, readerStep_timestamps]
        · rw [if_neg hb]
          exact readerStep_timestamps s pg

/-- C10: the timestamps list passed into process_lines is never mutated by
the sweep: after any number of page groups have been processed, the
timestamp sequence in the final state is element-for-element the one
supplied at the start. -/
theorem process_lines_timestamps_unchanged
    (dump : List (Option Page)) (timestamps : List Nat)
    (only_last_revision : Bool) :
    (process_lines_state dump timestamps only_last_revision).2.timestamps
      = timestamps :=
  readerLoop_timestamps dump _

/-- C2 (refuting evaluation): process_lines does not terminate on an empty
input, nor when the timestamps are exhausted while revisions of the page
remain un-consumed (the outer sweep loop never advances j again), nor when
the last input row is malformed (the end-of-stream re-read keeps failing):
the flag false models the Python loop running forever, here after yielding
no pair, one pair, and no pair respectively. -/
theorem process_lines_diverges_on_boundary_inputs :
    (process_lines [] scenarioTimestamps false).1 = false ∧
    process_lines [some pageA1, some pageA2] [20150201] false
      = (false, [(pageA1, 20150201)]) ∧
    (process_lines [some pageA1, none] scenarioTimestamps false).1 = false := by
  exact ⟨rfl, by decide, rfl⟩

/-- C3 (refuting evaluation): the only_last_revision argument of
process_lines is accepted but never read, so the sweep is not bypassed:
output is identical for both flag values, and with the flag set the
earlier revision of Scenario A is still emitted for the earlier
timestamps. -/
theorem process_lines_only_last_revision_has_no_effect :
    (∀ (dump : List (Option Page)) (timestamps : List Nat) (b₁ b₂ : Bool),
      process_lines dump timestamps b₁ = process_lines dump timestamps b₂) ∧
    (pageA1, 20150201)
      ∈ (process_lines [some pageA1, some pageA2] scenarioTimestamps true).2 := by
  exact ⟨fun _ _ _ _ => rfl, by decide⟩

/-- C5: on Scenario A (page 42 with revisions at 2015-01-10 and 2015-03-05,
timestamps 2015-01-01, 2015-02-01, 2015-03-01, 2015-04-01) the sweep
terminates and emits exactly the pairs (rev@01-10, 02-01),
(rev@01-10, 03-01), (rev@03-05, 04-01), and no pair for 2015-01-01. -/
theorem process_lines_scenario_a :
    process_lines [some pageA1, some pageA2] scenarioTimestamps false
      = (true, [(pageA1, 20150201), (pageA1, 20150301), (pageA2, 20150401)]) := by
  decide

/-- C7 (counterexample): a timestamp sequence that is not strictly
increasing is consumed without any error and produces output pairs, so no
fail-fast validation of the timestamp sequence exists. -/
theorem process_lines_accepts_unordered_timestamps :
    ¬ List.Pairwise (· < ·) [20160101, 20150201] ∧
    process_lines [some pageA1] [20160101, 20150201] false
      = (true, [(pageA1, 20160101), (pageA1, 20150201)]) := by
  exact ⟨by decide, by decide⟩

/-- C7 (amended): process_lines performs no validation of the timestamp
sequence: there are non-strictly-increasing timestamp sequences from which
it terminates normally and emits a non-empty pair sequence. -/
theorem process_lines_no_timestamp_validation :
    ∃ (timestamps : List Nat) (dump : List (Option Page)),
      ¬ List.Pairwise (· < ·) timestamps ∧
      (process_lines dump timestamps false).1 = true ∧
      (process_lines dump timestamps false).2 ≠ [] := by
  exact ⟨[20160101, 20150201], [some pageA1], by decide, by decide, by decide⟩

/-- Inserting with insertByTs yields a permutation of consing. -/
theorem insertByTs_perm (p : Page) :
    ∀ l : List Page, (insertByTs p l).Perm (p :: l) := by
  intro l
  induction l with
  | nil => rfl
  | cons q qs ih =>
    show (if revTs q < revTs p then q :: insertByTs p qs else p :: q :: qs).Perm
      (p :: q :: qs)
    by_cases hlt : revTs q < revTs p
    · rw [if_pos hlt]
      exact (ih.cons q).trans (List.Perm.swap p q qs)
    · rw [if_neg hlt]

/-- Sorting with sortByTs yields a permutation of the input group. -/
theorem sortByTs_perm : ∀ l : List Page, (sortByTs l).Perm l := by
  intro l
  induction l with
  | nil => rfl
  | cons p ps ih =>
    exact (insertByTs_perm p (sortByTs ps)).trans (ih.cons p)

/-- Membership in an insertByTs result. -/
theorem mem_insertByTs {x p : Page} {l : List Page}
    (hx : x ∈ insertByTs p l) : x = p ∨ x ∈ l := by
  have := (insertByTs_perm p l).mem_iff.mp hx
  simpa using this

/-- insertByTs preserves sortedness by revision timestamp. -/
theorem insertByTs_sorted (p : Page) :
    ∀ l : List Page, List.Pairwise (fun a b => revTs a ≤ revTs b) l →
      List.Pairwise (fun a b => revTs a ≤ revTs b) (insertByTs p l) := by
  intro l
  induction l with
  | nil => intro _; exact List.pairwise_singleton _ p
  | cons q qs ih =>
    intro hs
    show List.Pairwise _ (if revTs q < revTs p then q :: insertByTs p qs else p :: q :: qs)
    by_cases hlt : revTs q < revTs p
    · rw [if_pos hlt]
      refine List.Pairwise.cons ?_ (ih hs.of_cons)
      intro x hx
      rcases mem_insertByTs hx with hxp | hxq
      · rw [hxp]; omega
      · exact List.rel_of_pairwise_cons hs hxq
    · rw [if_neg hlt]
      refine List.Pairwise.cons ?_ hs
      intro x hx
      rcases List.mem_cons.mp hx with hxq | hxq
      · rw [hxq]; omega
      · have hq := List.rel_of_pairwise_cons hs hxq
        omega

/-- sortByTs sorts the group by revision timestamp (non-decreasing). -/
theorem sortByTs_sorted :
    ∀ l : List Page, List.Pairwise (fun a b => revTs a ≤ revTs b) (sortByTs l) := by
  intro l
  induction l with
  | nil => exact List.Pairwise.nil
  | cons p ps ih => exact insertByTs_sorted p (sortByTs ps) ih

/-- Stability of insertByTs at one timestamp value: the inserted page goes
in front of all group members with the same timestamp, behind none. -/
theorem insertByTs_filter_eq (t : Nat) (p : Page) :
    ∀ l : List Page,
      (insertByTs p l).filter (fun q => revTs q == t)
        = if revTs p = t
            then p :: l.filter (fun q => revTs q == t)
            else l.filter (fun q => revTs q == t) := by
  intro l
  induction l with
  | nil =>
    by_cases hp : revTs p = t
    · simp [insertByTs, hp]
    · simp [insertByTs, hp]
  | cons q qs ih =>
    show (if revTs q < revTs p then q :: insertByTs p qs else p :: q :: qs).filter _ = _
    by_cases hlt : revTs q < revTs p
    · rw [if_pos hlt]
      by_cases hp : revTs p = t
      · have hq : ¬ revTs q = t := by omega
        simp only [List.filter_cons, ih, if_pos hp,
          show (revTs q == t) = false from by simp [hq]]
        simp [hq]
      · simp only [List.filter_cons, ih, if_neg hp]
    · rw [if_neg hlt]
      by_cases hp : revTs p = t
      · simp only [List.filter_cons, if_pos hp,
          show (revTs p == t) = true from by simp [hp]]
        simp
      · simp only [List.filter_cons,
          show (revTs p == t) = false from by simp [hp], if_neg hp]
        simp

/-- Stability of sortByTs: at every timestamp value, the sorted group
lists the pages with that timestamp in their original arrival order. -/
theorem sortByTs_stable (t : Nat) :
    ∀ l : List Page,
      (sortByTs l).filter (fun q => revTs q == t)
        = l.filter (fun q => revTs q == t) := by
  intro l
  induction l with
  | nil => rfl
  | cons p ps ih =>
    show (insertByTs p (sortByTs ps)).filter _ = _
    rw [insertByTs_filter_eq t p (sortByTs ps), List.filter_cons]
    by_cases hp : revTs p = t
    · rw [if_pos hp, ih, show (revTs p == t) = true from by simp [hp]]
      simp
    · rw [if_neg hp, ih, show (revTs p == t) = false from by simp [hp]]
      simp

/-- C8 (counterexample): two revisions of the same page with equal
timestamps arrive with the larger revision id first; the group handed to
the sweep keeps them in arrival order, not ordered by revision id: the
sort key at source lines 235-236 is the timestamp alone. -/
theorem sortByTs_no_id_tiebreak :
    sortByTs [pageT2, pageT1] = [pageT2, pageT1] ∧
    revTs pageT2 = revTs pageT1 ∧
    pageT1.revision.id < pageT2.revision.id ∧
    (process_lines_state [some pageT2, some pageT1] [20150201] false).2.groups
      = [[pageT2, pageT1]] := by
  exact ⟨rfl, rfl, by decide, by decide⟩

/-- C8 (amended): at every page boundary the reader stable-sorts the open
group by revision timestamp alone, ties keeping arrival order (no revision
id tie-break), and starts the new open group with the current row. -/
theorem readerStep_stable_sort_by_timestamp :
    (∀ l : List Page, (sortByTs l).Perm l ∧
      List.Pairwise (fun a b => revTs a ≤ revTs b) (sortByTs l)) ∧
    (∀ (t : Nat) (l : List Page),
      (sortByTs l).filter (fun q => revTs q == t)
        = l.filter (fun q => revTs q == t)) ∧
    (∀ (s : ReaderState) (pg prev : Page), s.dump_prevpage = some prev →
      prev.id ≠ pg.id →
      (readerStep s pg).2.page_revisions = [pg] ∧
      (readerStep s pg).2.groups = s.groups ++ [sortByTs s.page_revisions]) := by
  refine ⟨fun l => ⟨sortByTs_perm l, sortByTs_sorted l⟩,
    fun t l => sortByTs_stable t l, fun s pg prev hprev hid => ?_⟩
  unfold readerStep
  rw [hprev]
  simp only [if_neg hid]
  trivial

/-- C8 (witness): the amended statement applied to the equal-timestamp
group and to a concrete page boundary. -/
theorem readerStep_stable_sort_by_timestamp_witness :
    (sortByTs [pageT2, pageT1]).Perm [pageT2, pageT1] ∧
    (readerStep { timestamps := [20150201], dump_prevpage := some pageA1,
                  page_revisions := [pageA1], groups := [], out := [] }
        pageB).2.page_revisions = [pageB] := by
  refine ⟨(readerStep_stable_sort_by_timestamp.1 [pageT2, pageT1]).1, ?_⟩
  exact (readerStep_stable_sort_by_timestamp.2.2
    { timestamps := [20150201], dump_prevpage := some pageA1,
      page_revisions := [pageA1], groups := [], out := [] }
    pageB pageA1 rfl (by decide)).1

/-- When a split point separates the group into timestamps at most t and
timestamps beyond t, the current revision at t is the last element of the
first part. -/
theorem currentRev_split (l₁ l₂ : List Page) (t : Nat)
    (h₁ : ∀ p ∈ l₁, revTs p ≤ t) (h₂ : ∀ p ∈ l₂, t < revTs p) :
    currentRev (l₁ ++ l₂) t = l₁.getLast? := by
  unfold currentRev
  rw [List.filter_append]
  rw [List.filter_eq_self.mpr (fun p hp => by simpa using h₁ p hp)]
  rw [List.filter_eq_nil.mpr (fun p hp => by simpa using Nat.not_le_of_lt (h₂ p hp))]
  rw [List.append_nil]

/-- In a timestamp-sorted group, every member's timestamp is at most the
last member's timestamp. -/
theorem sorted_le_getLast (l : List Page)
    (hs : List.Pairwise (fun a b => revTs a ≤ revTs b) l) (x : Page)
    (hx : l.getLast? = some x) : ∀ p ∈ l, revTs p ≤ revTs x := by
  induction l with
  | nil => intro p hp; cases hp
  | cons a as ih =>
    cases as with
    | nil =>
      intro p hp
      have hax : a = x := by simpa using hx
      have hpa : p = a := by simpa using hp
      rw [hpa, hax]
    | cons b bs =>
      have hx' : (b :: bs).getLast? = some x := by
        rw [← hx]
        exact List.getLast?_cons_cons.symm
      intro p hp
      rcases List.mem_cons.mp hp with hpa | hpas
      · have hxmem : x ∈ b :: bs := List.mem_of_mem_getLast? hx'
        have hax : revTs a ≤ revTs x := List.rel_of_pairwise_cons hs hxmem
        rw [hpa]; exact hax
      · exact ih hs.of_cons hx' p hpas

/-- The last element of a nonempty take is the element before the cut. -/
theorem getLast?_take (L : List Page) (j : Nat) (hj1 : 1 ≤ j)
    (hj : j - 1 < L.length) :
    (L.take j).getLast? = some (L.get ⟨j - 1, hj⟩) := by
  rw [List.getLast?_eq_getElem?]
  have hlen : (L.take j).length = min j L.length := List.length_take j L
  have hmin : min j L.length - 1 = j - 1 := by omega
  rw [hlen, hmin]
  rw [List.getElem?_take]
  rw [if_pos (by omega)]
  rw [List.getElem?_eq_getElem hj]
  rfl

/-- In a timestamp-sorted list, every element from position j on has a
timestamp at least that of the element at j. -/
theorem sorted_drop_lower (L : List Page)
    (HL : List.Pairwise (fun a b => revTs a ≤ revTs b) L) (j : Nat)
    (hj : j < L.length) :
    ∀ p ∈ L.drop j, revTs (L.get ⟨j, hj⟩) ≤ revTs p := by
  intro p hp
  have hdrop : L.drop j = L.get ⟨j, hj⟩ :: L.drop (j + 1) := by
    rw [List.drop_eq_getElem_cons hj]
    rfl
  have hpair : List.Pairwise (fun a b => revTs a ≤ revTs b) (L.drop j) :=
    HL.sublist (List.drop_sublist j L)
  rw [hdrop] at hp hpair
  rcases List.mem_cons.mp hp with hph | hpt
  · rw [hph]
  · exact List.rel_of_pairwise_cons hpair hpt

/-- In a timestamp-sorted list, every element before position j has a
timestamp at most that of the element at position j - 1. -/
theorem sorted_take_le (L : List Page)
    (HL : List.Pairwise (fun a b => revTs a ≤ revTs b) L) (j : Nat)
    (hj1 : 1 ≤ j) (hj : j - 1 < L.length) :
    ∀ p ∈ L.take j, revTs p ≤ revTs (L.get ⟨j - 1, hj⟩) :=
  sorted_le_getLast (L.take j) (HL.sublist (List.take_sublist j L))
    (L.get ⟨j - 1, hj⟩) (getLast?_take L j hj1 hj)

/-- Splitting the instants splits the specification pair list. -/
theorem snapshotPairs_append (sorted : List Page) (T₁ T₂ : List Nat) :
    snapshotPairs sorted (T₁ ++ T₂)
      = snapshotPairs sorted T₁ ++ snapshotPairs sorted T₂ :=
  List.filterMap_append T₁ T₂ _

/-- Specification pair list at an instant where the page does not exist. -/
theorem snapshotPairs_cons_none (sorted : List Page) (t : Nat) (T : List Nat)
    (hc : currentRev sorted t = none) :
    snapshotPairs sorted (t :: T) = snapshotPairs sorted T := by
  unfold snapshotPairs
  rw [List.filterMap_cons]
  rw [hc]
  rfl

/-- Specification pair list at an instant with a current revision. -/
theorem snapshotPairs_cons_some (sorted : List Page) (t : Nat) (T : List Nat)
    (p : Page) (hc : currentRev sorted t = some p) :
    snapshotPairs sorted (t :: T) = (p, t) :: snapshotPairs sorted T := by
  unfold snapshotPairs
  rw [List.filterMap_cons]
  rw [hc]
  rfl

/-- When every instant of the list has the same current revision, the
specification pair list is a plain fan-out of that revision. -/
theorem snapshotPairs_all_current (sorted : List Page) (page : Page) :
    ∀ T : List Nat, (∀ t ∈ T, currentRev sorted t = some page) →
      snapshotPairs sorted T = T.map (fun t => (page, t)) := by
  intro T
  induction T with
  | nil => intro _; rfl
  | cons t ts ih =>
    intro hall
    rw [snapshotPairs_cons_some sorted t ts page (hall t (by simp))]
    rw [ih (fun u hu => hall u (by simp [hu]))]
    rfl

/-- In a non-decreasing instant list, values at later positions are at
least values at earlier positions. -/
theorem pairwise_le_get_mono (T : List Nat) (HT : List.Pairwise (· ≤ ·) T)
    (k₁ k₂ : Nat) (h₁ : k₁ < T.length) (h₂ : k₂ < T.length) (hk : k₁ ≤ k₂) :
    T.get ⟨k₁, h₁⟩ ≤ T.get ⟨k₂, h₂⟩ := by
  rcases Nat.lt_or_ge k₁ k₂ with hlt | hge
  · exact List.pairwise_iff_get.mp HT ⟨k₁, h₁⟩ ⟨k₂, h₂⟩ hlt
  · have : k₁ = k₂ := by omega
    subst this
    exact le_refl _

/-- Tail phase of the inner loop: once j has passed the end of the sorted
list with prevpage set to the last candidate, every remaining instant
receives the pair (page, instant), provided the stale pt and ct lie at or
below all remaining instants. -/
theorem innerLoop_phaseB_out (sorted : List Page) (page : Page) (ct pt : Nat) :
    ∀ s : SweepState,
      s.prevpage = some page → sorted.length ≤ s.j →
      (∀ (k : Nat) (hk : k < s.timestamps.length), s.i ≤ k →
        pt ≤ s.timestamps.get ⟨k, hk⟩) →
      (∀ (k : Nat) (hk : k < s.timestamps.length), s.i ≤ k →
        ct ≤ s.timestamps.get ⟨k, hk⟩) →
      (innerLoop sorted page ct pt s).1.out
        = s.out ++ (s.timestamps.drop s.i).map (fun t => (page, t)) := by
  have key : ∀ (n : Nat) (s : SweepState), s.timestamps.length - s.i = n →
      s.prevpage = some page → sorted.length ≤ s.j →
      (∀ (k : Nat) (hk : k < s.timestamps.length), s.i ≤ k →
        pt ≤ s.timestamps.get ⟨k, hk⟩) →
      (∀ (k : Nat) (hk : k < s.timestamps.length), s.i ≤ k →
        ct ≤ s.timestamps.get ⟨k, hk⟩) →
      (innerLoop sorted page ct pt s).1.out
        = s.out ++ (s.timestamps.drop s.i).map (fun t => (page, t)) := by
    intro n
    induction n with
    | zero =>
      intro s hn hprev hj hptle hctle
      rw [innerLoop_stop sorted page ct pt s (by omega)]
      rw [List.drop_eq_nil_of_le (by omega)]
      simp
    | succ n ih =>
      intro s hn hprev hj hptle hctle
      have h : s.i < s.timestamps.length := by omega
      have hpt : ¬ pt > s.timestamps.get ⟨s.i, h⟩ := by
        have := hptle s.i h (le_refl _)
        omega
      have hct : ¬ ct > s.timestamps.get ⟨s.i, h⟩ := by
        have := hctle s.i h (le_refl _)
        omega
      have hjb : ¬ s.j + 1 < sorted.length := by omega
      rw [innerLoop_some_tail sorted page ct pt s page h hprev hpt hct hjb]
      set y : SweepState :=
        { s with i := s.i + 1, j := s.j + 1, prevpage := some page,
                 out := s.out ++ [(page, s.timestamps.get ⟨s.i, h⟩)] } with hy
      have hrec : (innerLoop sorted page ct pt y).1.out
          = (s.out ++ [(page, s.timestamps.get ⟨s.i, h⟩)])
            ++ (s.timestamps.drop (s.i + 1)).map (fun t => (page, t)) := by
        refine ih y (by simp [hy]; omega) rfl (by simp [hy]; omega) ?_ ?_
        · intro k hk hik
          exact hptle k hk (by simp [hy] at hik; omega)
        · intro k hk hik
          exact hctle k hk (by simp [hy] at hik; omega)
      rw [hrec]
      have hdrop : s.timestamps.drop s.i
          = s.timestamps.get ⟨s.i, h⟩ :: s.timestamps.drop (s.i + 1) := by
        rw [List.drop_eq_getElem_cons h]
        rfl
      rw [hdrop]
      rw [List.map_cons]
      simp only [List.append_assoc, List.singleton_append]
  intro s hprev hj hptle hctle
  exact key (s.timestamps.length - s.i) s rfl hprev hj hptle hctle

/-- In a non-decreasing instant list, every instant from position k on is
at least the instant at position k. -/
theorem sorted_drop_lower_nat (T : List Nat) (HT : List.Pairwise (· ≤ ·) T)
    (k : Nat) (hk : k < T.length) :
    ∀ t ∈ T.drop k, T.get ⟨k, hk⟩ ≤ t := by
  intro t ht
  have hdrop : T.drop k = T.get ⟨k, hk⟩ :: T.drop (k + 1) := by
    rw [List.drop_eq_getElem_cons hk]
    rfl
  have hpair : List.Pairwise (· ≤ ·) (T.drop k) := HT.sublist (List.drop_sublist k T)
  rw [hdrop] at ht hpair
  rcases List.mem_cons.mp ht with hth | htt
  · rw [hth]
  · exact List.rel_of_pairwise_cons hpair htt

/-- The current revision at instant t is the revision before position j
when that one is at or before t and the one at position j is after t. -/
theorem currentRev_eq_some_prev (L : List Page)
    (HL : List.Pairwise (fun a b => revTs a ≤ revTs b) L) (j : Nat)
    (hj1 : 1 ≤ j) (hjm : j - 1 < L.length) (hj : j < L.length) (t : Nat)
    (hle : revTs (L.get ⟨j - 1, hjm⟩) ≤ t)
    (hgt : t < revTs (L.get ⟨j, hj⟩)) :
    currentRev L t = some (L.get ⟨j - 1, hjm⟩) := by
  have h1 : ∀ p ∈ L.take j, revTs p ≤ t :=
    fun p hp => le_trans (sorted_take_le L HL j hj1 hjm p hp) hle
  have h2 : ∀ p ∈ L.drop j, t < revTs p :=
    fun p hp => lt_of_lt_of_le hgt (sorted_drop_lower L HL j hj p hp)
  have hs := currentRev_split (L.take j) (L.drop j) t h1 h2
  rw [List.take_append_drop] at hs
  rw [hs]
  exact getLast?_take L j hj1 hjm

/-- The page does not exist at instant t when even the earliest revision
is after t. -/
theorem currentRev_eq_none (L : List Page)
    (HL : List.Pairwise (fun a b => revTs a ≤ revTs b) L)
    (hj0 : 0 < L.length) (t : Nat)
    (hgt : t < revTs (L.get ⟨0, hj0⟩)) : currentRev L t = none := by
  have h2 : ∀ p ∈ L, t < revTs p := by
    intro p hp
    exact lt_of_lt_of_le hgt (sorted_drop_lower L HL 0 hj0 p (by simpa using hp))
  have hs := currentRev_split [] L t (by simp) h2
  rw [List.nil_append] at hs
  rw [hs]
  rfl

/-- The current revision at instant t is the last revision of the group
when that one is at or before t. -/
theorem currentRev_eq_last (L : List Page)
    (HL : List.Pairwise (fun a b => revTs a ≤ revTs b) L) (x : Page)
    (hlast : L.getLast? = some x) (t : Nat) (hxle : revTs x ≤ t) :
    currentRev L t = some x := by
  have h1 : ∀ p ∈ L, revTs p ≤ t :=
    fun p hp => le_trans (sorted_le_getLast L HL x hlast p hp) hxle
  have hs := currentRev_split L [] t h1 (by simp)
  rw [List.append_nil] at hs
  rw [hs]
  exact hlast

/-- The last element of a nonempty list through its position. -/
theorem getLast?_eq_get_last (L : List Page) (h : 0 < L.length) :
    L.getLast? = some (L.get ⟨L.length - 1, by omega⟩) := by
  have := getLast?_take L L.length (by omega) (by omega)
  rw [List.take_length] at this
  exact this

/-- Middle phase of the inner loop: entered with prevpage the revision
before position j, whose timestamp is at or before the current instant,
the loop emits exactly the specified pairs for the instants it examines;
when it ends via break the superseding candidate lies at or before the
instant at which it broke. -/
theorem innerLoop_phaseA_some_out (sorted : List Page)
    (HL : List.Pairwise (fun a b => revTs a ≤ revTs b) sorted)
    (page : Page) (ct pt : Nat) :
    ∀ (s : SweepState),
      List.Pairwise (· ≤ ·) s.timestamps →
      ∀ (hj : s.j < sorted.length),
      1 ≤ s.j →
      ∀ (hjm : s.j - 1 < sorted.length),
      page = sorted.get ⟨s.j, hj⟩ →
      s.prevpage = some (sorted.get ⟨s.j - 1, hjm⟩) →
      ct = revTs page →
      pt = revTs (sorted.get ⟨s.j - 1, hjm⟩) →
      (∀ h : s.i < s.timestamps.length,
        revTs (sorted.get ⟨s.j - 1, hjm⟩) ≤ s.timestamps.get ⟨s.i, h⟩) →
      (innerLoop sorted page ct pt s).1.out
        = s.out ++ snapshotPairs sorted
            ((s.timestamps.drop s.i).take
              ((innerLoop sorted page ct pt s).1.i - s.i)) ∧
      ((innerLoop sorted page ct pt s).2 = true →
        ∃ h' : (innerLoop sorted page ct pt s).1.i < s.timestamps.length,
          revTs page ≤ s.timestamps.get
            ⟨(innerLoop sorted page ct pt s).1.i, h'⟩) := by
  have key : ∀ (n : Nat) (s : SweepState),
      s.timestamps.length - s.i = n →
      List.Pairwise (· ≤ ·) s.timestamps →
      ∀ (hj : s.j < sorted.length),
      1 ≤ s.j →
      ∀ (hjm : s.j - 1 < sorted.length),
      page = sorted.get ⟨s.j, hj⟩ →
      s.prevpage = some (sorted.get ⟨s.j - 1, hjm⟩) →
      ct = revTs page →
      pt = revTs (sorted.get ⟨s.j - 1, hjm⟩) →
      (∀ h : s.i < s.timestamps.length,
        revTs (sorted.get ⟨s.j - 1, hjm⟩) ≤ s.timestamps.get ⟨s.i, h⟩) →
      (innerLoop sorted page ct pt s).1.out
        = s.out ++ snapshotPairs sorted
            ((s.timestamps.drop s.i).take
              ((innerLoop sorted page ct pt s).1.i - s.i)) ∧
      ((innerLoop sorted page ct pt s).2 = true →
        ∃ h' : (innerLoop sorted page ct pt s).1.i < s.timestamps.length,
          revTs page ≤ s.timestamps.get
            ⟨(innerLoop sorted page ct pt s).1.i, h'⟩) := by
    intro n
    induction n with
    | zero =>
      intro s hn _ hj hj1 hjm hpage hprev hct hpt hple
      rw [innerLoop_stop sorted page ct pt s (by omega)]
      constructor
      · show s.out = s.out ++ snapshotPairs sorted
          ((s.timestamps.drop s.i).take (s.i - s.i))
        rw [Nat.sub_self, List.take_zero]
        simp [snapshotPairs]
      · simp
    | succ n ih =>
      intro s hn HT hj hj1 hjm hpage hprev hct hpt hple
      have h : s.i < s.timestamps.length := by omega
      have hpt' : ¬ pt > s.timestamps.get ⟨s.i, h⟩ := by
        have := hple h
        omega
      by_cases hct' : ct > s.timestamps.get ⟨s.i, h⟩
      · rw [innerLoop_some_emit sorted page ct pt s (sorted.get ⟨s.j - 1, hjm⟩)
          h hprev hpt' hct']
        set y : SweepState :=
          { s with i := s.i + 1,
                   out := s.out ++ [(sorted.get ⟨s.j - 1, hjm⟩,
                     s.timestamps.get ⟨s.i, h⟩)] } with hy
        have hylen : y.timestamps.length - y.i = n := by simp [hy]; omega
        have hpley : ∀ h' : y.i < y.timestamps.length,
            revTs (sorted.get ⟨y.j - 1, hjm⟩) ≤ y.timestamps.get ⟨y.i, h'⟩ := by
          intro h'
          have h2 : s.i + 1 < s.timestamps.length := h'
          exact le_trans (hple h)
            (pairwise_le_get_mono s.timestamps HT s.i (s.i + 1) h h2 (by omega))
        have ihy := ih y hylen HT hj hj1 hjm hpage hprev hct hpt hpley
        obtain ⟨ihout, ihbroke⟩ := ihy
        constructor
        · have hImono : s.i + 1 ≤ (innerLoop sorted page ct pt y).1.i :=
            (innerLoop_basic sorted page ct pt y).2.1
          have hcur : currentRev sorted (s.timestamps.get ⟨s.i, h⟩)
              = some (sorted.get ⟨s.j - 1, hjm⟩) := by
            refine currentRev_eq_some_prev sorted HL s.j hj1 hjm hj _ (hple h) ?_
            rw [← hpage, ← hct]
            exact hct'
          have hdrop : s.timestamps.drop s.i
              = s.timestamps.get ⟨s.i, h⟩ :: s.timestamps.drop (s.i + 1) := by
            rw [List.drop_eq_getElem_cons h]
            rfl
          have hiy : (innerLoop sorted page ct pt y).1.out
              = (s.out ++ [(sorted.get ⟨s.j - 1, hjm⟩, s.timestamps.get ⟨s.i, h⟩)])
                ++ snapshotPairs sorted
                  ((s.timestamps.drop (s.i + 1)).take
                    ((innerLoop sorted page ct pt y).1.i - (s.i + 1))) := ihout
          rw [hiy, hdrop]
          rw [show (innerLoop sorted page ct pt y).1.i - s.i
              = ((innerLoop sorted page ct pt y).1.i - (s.i + 1)) + 1 from by omega]
          rw [List.take_succ_cons]
          rw [snapshotPairs_cons_some sorted _ _ _ hcur]
          simp only [List.append_assoc, List.singleton_append]
        · intro hb
          obtain ⟨h', hle'⟩ := ihbroke hb
          exact ⟨h', hle'⟩
      · by_cases hjb : s.j + 1 < sorted.length
        · rw [innerLoop_some_break sorted page ct pt s (sorted.get ⟨s.j - 1, hjm⟩)
            h hprev hpt' hct' hjb]
          constructor
          · show s.out = s.out ++ snapshotPairs sorted
              ((s.timestamps.drop s.i).take (s.i - s.i))
            rw [Nat.sub_self, List.take_zero]
            simp [snapshotPairs]
          · intro _
            refine ⟨h, ?_⟩
            show revTs page ≤ s.timestamps.get ⟨s.i, h⟩
            omega
        · rw [innerLoop_some_tail sorted page ct pt s (sorted.get ⟨s.j - 1, hjm⟩)
            h hprev hpt' hct' hjb]
          set y : SweepState :=
            { s with i := s.i + 1, j := s.j + 1, prevpage := some page,
                     out := s.out ++ [(page, s.timestamps.get ⟨s.i, h⟩)] } with hy
          have hjy : sorted.length ≤ y.j := by
            show sorted.length ≤ s.j + 1
            omega
          have hptley : ∀ (k : Nat) (hk : k < y.timestamps.length), y.i ≤ k →
              pt ≤ y.timestamps.get ⟨k, hk⟩ := by
            intro k hk hik
            have hk' : k < s.timestamps.length := hk
            have hik' : s.i + 1 ≤ k := hik
            rw [hpt]
            exact le_trans (hple h)
              (pairwise_le_get_mono s.timestamps HT s.i k h hk' (by omega))
          have hctley : ∀ (k : Nat) (hk : k < y.timestamps.length), y.i ≤ k →
              ct ≤ y.timestamps.get ⟨k, hk⟩ := by
            intro k hk hik
            have hk' : k < s.timestamps.length := hk
            have hik' : s.i + 1 ≤ k := hik
            have hctle : ct ≤ s.timestamps.get ⟨s.i, h⟩ := by omega
            exact le_trans hctle
              (pairwise_le_get_mono s.timestamps HT s.i k h hk' (by omega))
          have hBout := innerLoop_phaseB_out sorted page ct pt y rfl hjy hptley hctley
          have hnb : (innerLoop sorted page ct pt y).2 = false := by
            cases hb2 : (innerLoop sorted page ct pt y).2 with
            | false => rfl
            | true =>
              have hbj : y.j + 1 < sorted.length :=
                ((innerLoop_basic sorted page ct pt y).2.2.1 hb2).2.1
              have : s.j + 1 + 1 < sorted.length := hbj
              omega
          have hI : s.timestamps.length ≤ (innerLoop sorted page ct pt y).1.i :=
            (innerLoop_basic sorted page ct pt y).2.2.2 hnb
          have hlastpage : sorted.getLast? = some page := by
            rw [getLast?_eq_get_last sorted (by omega)]
            rw [hpage]
            have hfin : (⟨sorted.length - 1, by omega⟩ : Fin sorted.length)
                = ⟨s.j, hj⟩ := Fin.ext (by simp; omega)
            rw [hfin]
          have hallcur : ∀ t ∈ s.timestamps.drop s.i,
              currentRev sorted t = some page := by
            intro t ht
            refine currentRev_eq_last sorted HL page hlastpage t ?_
            have hts : s.timestamps.get ⟨s.i, h⟩ ≤ t :=
              sorted_drop_lower_nat s.timestamps HT s.i h t ht
            rw [← hct] at *
            omega
          constructor
          · have hBout' : (innerLoop sorted page ct pt y).1.out
                = (s.out ++ [(page, s.timestamps.get ⟨s.i, h⟩)])
                  ++ (s.timestamps.drop (s.i + 1)).map (fun t => (page, t)) := hBout
            rw [hBout']
            rw [List.take_of_length_le
              (by rw [List.length_drop]; omega)]
            rw [snapshotPairs_all_current sorted page (s.timestamps.drop s.i) hallcur]
            have hdrop : s.timestamps.drop s.i
                = s.timestamps.get ⟨s.i, h⟩ :: s.timestamps.drop (s.i + 1) := by
              rw [List.drop_eq_getElem_cons h]
              rfl
            rw [hdrop, List.map_cons]
            simp only [List.append_assoc, List.singleton_append]
          · intro hb
            rw [hnb] at hb
            cases hb
  intro s HT hj hj1 hjm hpage hprev hct hpt hple
  exact key (s.timestamps.length - s.i) s rfl HT hj hj1 hjm hpage hprev hct hpt hple

/-- Opening phase of the inner loop: entered with no previous revision and
j at the start of the group, the loop skips instants that precede the
first revision (at which the specification emits nothing) and otherwise
behaves like the middle phase. -/
theorem innerLoop_phaseA_none_out (sorted : List Page)
    (HL : List.Pairwise (fun a b => revTs a ≤ revTs b) sorted)
    (page : Page) (ct pt : Nat) :
    ∀ (s : SweepState),
      List.Pairwise (· ≤ ·) s.timestamps →
      ∀ (hj0 : 0 < sorted.length),
      s.j = 0 →
      s.prevpage = none →
      page = sorted.get ⟨0, hj0⟩ →
      ct = revTs page →
      pt = EPOCH →
      (innerLoop sorted page ct pt s).1.out
        = s.out ++ snapshotPairs sorted
            ((s.timestamps.drop s.i).take
              ((innerLoop sorted page ct pt s).1.i - s.i)) ∧
      ((innerLoop sorted page ct pt s).2 = true →
        ∃ h' : (innerLoop sorted page ct pt s).1.i < s.timestamps.length,
          revTs page ≤ s.timestamps.get
            ⟨(innerLoop sorted page ct pt s).1.i, h'⟩) := by
  have key : ∀ (n : Nat) (s : SweepState),
      s.timestamps.length - s.i = n →
      List.Pairwise (· ≤ ·) s.timestamps →
      ∀ (hj0 : 0 < sorted.length),
      s.j = 0 →
      s.prevpage = none →
      page = sorted.get ⟨0, hj0⟩ →
      ct = revTs page →
      pt = EPOCH →
      (innerLoop sorted page ct pt s).1.out
        = s.out ++ snapshotPairs sorted
            ((s.timestamps.drop s.i).take
              ((innerLoop sorted page ct pt s).1.i - s.i)) ∧
      ((innerLoop sorted page ct pt s).2 = true →
        ∃ h' : (innerLoop sorted page ct pt s).1.i < s.timestamps.length,
          revTs page ≤ s.timestamps.get
            ⟨(innerLoop sorted page ct pt s).1.i, h'⟩) := by
    intro n
    induction n with
    | zero =>
      intro s hn _ hj0 hjz hprev hpage hct hpt
      rw [innerLoop_stop sorted page ct pt s (by omega)]
      constructor
      · show s.out = s.out ++ snapshotPairs sorted
          ((s.timestamps.drop s.i).take (s.i - s.i))
        rw [Nat.sub_self, List.take_zero]
        simp [snapshotPairs]
      · simp
    | succ n ih =>
      intro s hn HT hj0 hjz hprev hpage hct hpt
      have h : s.i < s.timestamps.length := by omega
      by_cases hct' : ct > s.timestamps.get ⟨s.i, h⟩
      · rw [innerLoop_none_skip sorted page ct pt s h hprev hct']
        set y : SweepState := { s with i := s.i + 1 } with hy
        have ihy := ih y (by simp [hy]; omega) HT hj0 hjz hprev hpage hct hpt
        obtain ⟨ihout, ihbroke⟩ := ihy
        constructor
        · have hImono : s.i + 1 ≤ (innerLoop sorted page ct pt y).1.i :=
            (innerLoop_basic sorted page ct pt y).2.1
          have hcur : currentRev sorted (s.timestamps.get ⟨s.i, h⟩) = none := by
            refine currentRev_eq_none sorted HL hj0 _ ?_
            rw [← hpage, ← hct]
            exact hct'
          have hdrop : s.timestamps.drop s.i
              = s.timestamps.get ⟨s.i, h⟩ :: s.timestamps.drop (s.i + 1) := by
            rw [List.drop_eq_getElem_cons h]
            rfl
          have hiy : (innerLoop sorted page ct pt y).1.out
              = s.out ++ snapshotPairs sorted
                  ((s.timestamps.drop (s.i + 1)).take
                    ((innerLoop sorted page ct pt y).1.i - (s.i + 1))) := ihout
          rw [hiy, hdrop]
          rw [show (innerLoop sorted page ct pt y).1.i - s.i
              = ((innerLoop sorted page ct pt y).1.i - (s.i + 1)) + 1 from by omega]
          rw [List.take_succ_cons]
          rw [snapshotPairs_cons_none sorted _ _ hcur]
        · intro hb
          obtain ⟨h', hle'⟩ := ihbroke hb
          exact ⟨h', hle'⟩
      · by_cases hjb : s.j + 1 < sorted.length
        · rw [innerLoop_none_break sorted page ct pt s h hprev hct' hjb]
          constructor
          · show s.out = s.out ++ snapshotPairs sorted
              ((s.timestamps.drop s.i).take (s.i - s.i))
            rw [Nat.sub_self, List.take_zero]
            simp [snapshotPairs]
          · intro _
            refine ⟨h, ?_⟩
            show revTs page ≤ s.timestamps.get ⟨s.i, h⟩
            omega
        · rw [innerLoop_none_tail sorted page ct pt s h hprev hct' hjb]
          set y : SweepState :=
            { s with i := s.i + 1, j := s.j + 1, prevpage := some page,
                     out := s.out ++ [(page, s.timestamps.get ⟨s.i, h⟩)] } with hy
          have hjy : sorted.length ≤ y.j := by
            show sorted.length ≤ s.j + 1
            omega
          have hptley : ∀ (k : Nat) (hk : k < y.timestamps.length), y.i ≤ k →
              pt ≤ y.timestamps.get ⟨k, hk⟩ := by
            intro k hk _
            rw [hpt]
            simp [EPOCH]
          have hctley : ∀ (k : Nat) (hk : k < y.timestamps.length), y.i ≤ k →
              ct ≤ y.timestamps.get ⟨k, hk⟩ := by
            intro k hk hik
            have hk' : k < s.timestamps.length := hk
            have hik' : s.i + 1 ≤ k := hik
            have hctle : ct ≤ s.timestamps.get ⟨s.i, h⟩ := by omega
            exact le_trans hctle
              (pairwise_le_get_mono s.timestamps HT s.i k h hk' (by omega))
          have hBout := innerLoop_phaseB_out sorted page ct pt y rfl hjy hptley hctley
          have hnb : (innerLoop sorted page ct pt y).2 = false := by
            cases hb2 : (innerLoop sorted page ct pt y).2 with
            | false => rfl
            | true =>
              have hbj : y.j + 1 < sorted.length :=
                ((innerLoop_basic sorted page ct pt y).2.2.1 hb2).2.1
              have : s.j + 1 + 1 < sorted.length := hbj
              omega
          have hI : s.timestamps.length ≤ (innerLoop sorted page ct pt y).1.i :=
            (innerLoop_basic sorted page ct pt y).2.2.2 hnb
          have hlastpage : sorted.getLast? = some page := by
            rw [getLast?_eq_get_last sorted (by omega)]
            rw [hpage]
            have hfin : (⟨sorted.length - 1, by omega⟩ : Fin sorted.length)
                = ⟨0, hj0⟩ := Fin.ext (by simp; omega)
            rw [hfin]
          have hallcur : ∀ t ∈ s.timestamps.drop s.i,
              currentRev sorted t = some page := by
            intro t ht
            refine currentRev_eq_last sorted HL page hlastpage t ?_
            have hts : s.timestamps.get ⟨s.i, h⟩ ≤ t :=
              sorted_drop_lower_nat s.timestamps HT s.i h t ht
            rw [← hct] at *
            omega
          constructor
          · have hBout' : (innerLoop sorted page ct pt y).1.out
                = (s.out ++ [(page, s.timestamps.get ⟨s.i, h⟩)])
                  ++ (s.timestamps.drop (s.i + 1)).map (fun t => (page, t)) := hBout
            rw [hBout']
            rw [List.take_of_length_le
              (by rw [List.length_drop]; omega)]
            rw [snapshotPairs_all_current sorted page (s.timestamps.drop s.i) hallcur]
            have hdrop : s.timestamps.drop s.i
                = s.timestamps.get ⟨s.i, h⟩ :: s.timestamps.drop (s.i + 1) := by
              rw [List.drop_eq_getElem_cons h]
              rfl
            rw [hdrop, List.map_cons]
            simp only [List.append_assoc, List.singleton_append]
          · intro hb
            rw [hnb] at hb
            cases hb
  intro s HT hj0 hjz hprev hpage hct hpt
  exact key (s.timestamps.length - s.i) s rfl HT hj0 hjz hprev hpage hct hpt

/-- An empty group never has a current revision, so its specification pair
list is empty. -/
theorem snapshotPairs_nil (T : List Nat) : snapshotPairs [] T = [] := by
  induction T with
  | nil => rfl
  | cons t ts ih =>
    rw [snapshotPairs_cons_none [] t ts rfl]
    exact ih

/-- Characterization of the outer sweep loop: entered at a state
satisfying the sweep invariant, it appends to the emitted pairs exactly
the specified pairs of the instants not yet examined, whether the loop
ends or spins forever. -/
theorem outerLoop_out_spec (sorted : List Page)
    (HL : List.Pairwise (fun a b => revTs a ≤ revTs b) sorted) :
    ∀ (n : Nat) (s : SweepState), sorted.length - s.j = n →
      List.Pairwise (· ≤ ·) s.timestamps →
      ((s.j = 0 ∧ s.prevpage = none) ∨
        (∃ hjm : s.j - 1 < sorted.length, 1 ≤ s.j ∧ s.j < sorted.length ∧
          s.prevpage = some (sorted.get ⟨s.j - 1, hjm⟩) ∧
          ∀ h : s.i < s.timestamps.length,
            revTs (sorted.get ⟨s.j - 1, hjm⟩) ≤ s.timestamps.get ⟨s.i, h⟩)) →
      (outerLoop sorted s).2.out
        = s.out ++ snapshotPairs sorted (s.timestamps.drop s.i) := by
  intro n
  induction n with
  | zero =>
    intro s hn HT hINV
    rw [outerLoop_stop sorted s (by omega)]
    rcases hINV with ⟨hjz, _⟩ | ⟨_, _, hjlt, _, _⟩
    · have hempty : sorted = [] := List.length_eq_zero.mp (by omega)
      rw [hempty, snapshotPairs_nil]
      simp
    · omega
  | succ n ih =>
    intro s hn HT hINV
    have hj : s.j < sorted.length := by omega
    have hphase :
        (innerLoop sorted (sorted.get ⟨s.j, hj⟩)
          (sorted.get ⟨s.j, hj⟩).revision.timestamp (prevTs s.prevpage) s).1.out
          = s.out ++ snapshotPairs sorted
              ((s.timestamps.drop s.i).take
                ((innerLoop sorted (sorted.get ⟨s.j, hj⟩)
                  (sorted.get ⟨s.j, hj⟩).revision.timestamp
                  (prevTs s.prevpage) s).1.i - s.i)) ∧
        ((innerLoop sorted (sorted.get ⟨s.j, hj⟩)
          (sorted.get ⟨s.j, hj⟩).revision.timestamp (prevTs s.prevpage) s).2 = true →
          ∃ h' : (innerLoop sorted (sorted.get ⟨s.j, hj⟩)
            (sorted.get ⟨s.j, hj⟩).revision.timestamp (prevTs s.prevpage) s).1.i
              < s.timestamps.length,
            revTs (sorted.get ⟨s.j, hj⟩) ≤ s.timestamps.get
              ⟨(innerLoop sorted (sorted.get ⟨s.j, hj⟩)
                (sorted.get ⟨s.j, hj⟩).revision.timestamp
                (prevTs s.prevpage) s).1.i, h'⟩) := by
      rcases hINV with ⟨hjz, hprev⟩ | ⟨hjm, hj1, hjlt, hprev, hple⟩
      · have hj0 : 0 < sorted.length := by omega
        have hpage : sorted.get ⟨s.j, hj⟩ = sorted.get ⟨0, hj0⟩ := by
          have hfin : (⟨s.j, hj⟩ : Fin sorted.length) = ⟨0, hj0⟩ :=
            Fin.ext (by simp [hjz])
          rw [hfin]
        exact innerLoop_phaseA_none_out sorted HL (sorted.get ⟨s.j, hj⟩) _ _ s
          HT hj0 hjz hprev hpage rfl (by rw [hprev]; rfl)
      · exact innerLoop_phaseA_some_out sorted HL (sorted.get ⟨s.j, hj⟩) _ _ s
          HT hjlt hj1 hjm
          (by have hfin : (⟨s.j, hj⟩ : Fin sorted.length) = ⟨s.j, hjlt⟩ :=
                Fin.ext rfl
              rw [hfin])
          hprev rfl (by rw [hprev]; rfl) hple
    obtain ⟨hout, hbrk⟩ := hphase
    have hbasic := innerLoop_basic sorted (sorted.get ⟨s.j, hj⟩)
      (sorted.get ⟨s.j, hj⟩).revision.timestamp (prevTs s.prevpage) s
    have hTr := hbasic.1
    have himono := hbasic.2.1
    cases hb : (innerLoop sorted (sorted.get ⟨s.j, hj⟩)
        (sorted.get ⟨s.j, hj⟩).revision.timestamp (prevTs s.prevpage) s).2 with
    | true =>
      rw [outerLoop_broke sorted s hj hb]
      have hbfacts := hbasic.2.2.1 hb
      have hjr := hbfacts.1
      have hjlt2 := hbfacts.2.1
      have hprevr := hbfacts.2.2
      have hIH := ih (innerLoop sorted (sorted.get ⟨s.j, hj⟩)
          (sorted.get ⟨s.j, hj⟩).revision.timestamp (prevTs s.prevpage) s).1
        (by omega) (by rw [hTr]; exact HT)
        (Or.inr ⟨(by omega), (by omega), (by omega), ?_, ?_⟩)
      · rw [hIH, hTr]
        rw [hout]
        rw [List.append_assoc, ← snapshotPairs_append]
        have hsplit : (s.timestamps.drop s.i).take
              ((innerLoop sorted (sorted.get ⟨s.j, hj⟩)
                (sorted.get ⟨s.j, hj⟩).revision.timestamp
                (prevTs s.prevpage) s).1.i - s.i)
            ++ s.timestamps.drop
              ((innerLoop sorted (sorted.get ⟨s.j, hj⟩)
                (sorted.get ⟨s.j, hj⟩).revision.timestamp
                (prevTs s.prevpage) s).1.i)
            = s.timestamps.drop s.i := by
          conv_rhs => rw [← List.take_append_drop
            ((innerLoop sorted (sorted.get ⟨s.j, hj⟩)
              (sorted.get ⟨s.j, hj⟩).revision.timestamp
              (prevTs s.prevpage) s).1.i - s.i) (s.timestamps.drop s.i)]
          congr 1
          rw [List.drop_drop]
          congr 1
          omega
        rw [hsplit]
      · have hfin : (⟨(innerLoop sorted (sorted.get ⟨s.j, hj⟩)
            (sorted.get ⟨s.j, hj⟩).revision.timestamp
            (prevTs s.prevpage) s).1.j - 1,
              by omega⟩ : Fin sorted.length) = ⟨s.j, hj⟩ := by
          rw [Fin.mk.injEq]
          omega
        rw [hfin]
        exact hprevr
      · intro h'
        have h2 : (innerLoop sorted (sorted.get ⟨s.j, hj⟩)
            (sorted.get ⟨s.j, hj⟩).revision.timestamp
            (prevTs s.prevpage) s).1.i < s.timestamps.length := by
          rw [hTr] at h'
          exact h'
        obtain ⟨h3, hle⟩ := hbrk hb
        have hfin : (⟨(innerLoop sorted (sorted.get ⟨s.j, hj⟩)
            (sorted.get ⟨s.j, hj⟩).revision.timestamp
            (prevTs s.prevpage) s).1.j - 1,
              by omega⟩ : Fin sorted.length) = ⟨s.j, hj⟩ := by
          rw [Fin.mk.injEq]
          omega
        rw [hfin]
        have hgeteq : (innerLoop sorted (sorted.get ⟨s.j, hj⟩)
            (sorted.get ⟨s.j, hj⟩).revision.timestamp
            (prevTs s.prevpage) s).1.timestamps.get
              ⟨(innerLoop sorted (sorted.get ⟨s.j, hj⟩)
                (sorted.get ⟨s.j, hj⟩).revision.timestamp
                (prevTs s.prevpage) s).1.i, h'⟩
            = s.timestamps.get
              ⟨(innerLoop sorted (sorted.get ⟨s.j, hj⟩)
                (sorted.get ⟨s.j, hj⟩).revision.timestamp
                (prevTs s.prevpage) s).1.i, h2⟩ :=
          List.get_of_eq hTr _
        rw [hgeteq]
        exact hle
    | false =>
      have hIexh := hbasic.2.2.2 hb
      have hslice : (s.timestamps.drop s.i).take
            ((innerLoop sorted (sorted.get ⟨s.j, hj⟩)
              (sorted.get ⟨s.j, hj⟩).revision.timestamp
              (prevTs s.prevpage) s).1.i - s.i)
          = s.timestamps.drop s.i := by
        refine List.take_of_length_le ?_
        rw [List.length_drop]
        omega
      by_cases hlt : (innerLoop sorted (sorted.get ⟨s.j, hj⟩)
          (sorted.get ⟨s.j, hj⟩).revision.timestamp
          (prevTs s.prevpage) s).1.j < sorted.length
      · rw [outerLoop_hang sorted s hj hb hlt]
        rw [hout, hslice]
      · rw [outerLoop_done sorted s hj hb hlt]
        rw [hout, hslice]

/-- Full characterization of one sweep on a timestamp-sorted group with
non-decreasing instants: the emitted pairs are exactly the specified
current-revision pairs, whether the sweep terminates or spins forever
after the last emission. -/
theorem runSweep_out_spec (timestamps : List Nat) (sorted : List Page)
    (HL : List.Pairwise (fun a b => revTs a ≤ revTs b) sorted)
    (HT : List.Pairwise (· ≤ ·) timestamps) :
    (runSweep timestamps sorted).2.out = snapshotPairs sorted timestamps := by
  unfold runSweep outerLoop
  have h := outerLoop_out_spec sorted HL sorted.length
    { timestamps := timestamps, i := 0, j := 0, prevpage := none, out := [] }
    rfl HT (Or.inl ⟨rfl, rfl⟩)
  unfold outerLoop at h
  simpa using h

/-- The snapshot instant of every emitted specification pair is one of the
supplied instants. -/
theorem snd_mem_of_mem_snapshotPairs (sorted : List Page) (T : List Nat)
    (pr : Page × Nat) (hpr : pr ∈ snapshotPairs sorted T) : pr.2 ∈ T := by
  unfold snapshotPairs at hpr
  obtain ⟨t, ht, heq⟩ := List.mem_filterMap.mp hpr
  cases hcr : currentRev sorted t with
  | none => rw [hcr] at heq; cases heq
  | some q =>
    rw [hcr] at heq
    have : (q, t) = pr := by simpa using heq
    rw [← this]
    exact ht

/-- The revision of every emitted specification pair is a member of the
group. -/
theorem fst_mem_of_mem_snapshotPairs (sorted : List Page) (T : List Nat)
    (pr : Page × Nat) (hpr : pr ∈ snapshotPairs sorted T) : pr.1 ∈ sorted := by
  unfold snapshotPairs at hpr
  obtain ⟨t, _, heq⟩ := List.mem_filterMap.mp hpr
  cases hcr : currentRev sorted t with
  | none => rw [hcr] at heq; cases heq
  | some q =>
    rw [hcr] at heq
    have hqpr : (q, t) = pr := by simpa using heq
    have hqmem : q ∈ sorted.filter (fun p => revTs p ≤ t) :=
      List.mem_of_mem_getLast? hcr
    have := List.mem_of_mem_filter hqmem
    rw [← hqpr]
    exact this

/-- The snapshot instants of the specification pair list are
non-decreasing when the supplied instants are. -/
theorem pairwise_snd_snapshotPairs (sorted : List Page) :
    ∀ T : List Nat, List.Pairwise (· ≤ ·) T →
      List.Pairwise (· ≤ ·) ((snapshotPairs sorted T).map Prod.snd) := by
  intro T
  induction T with
  | nil => intro _; exact List.Pairwise.nil
  | cons t ts ih =>
    intro HT
    cases hcr : currentRev sorted t with
    | none =>
      rw [snapshotPairs_cons_none sorted t ts hcr]
      exact ih HT.of_cons
    | some p =>
      rw [snapshotPairs_cons_some sorted t ts p hcr]
      rw [List.map_cons]
      refine List.Pairwise.cons ?_ (ih HT.of_cons)
      intro u hu
      obtain ⟨pr, hpr, hpru⟩ := List.mem_map.mp hu
      have hmem : pr.2 ∈ ts := snd_mem_of_mem_snapshotPairs sorted ts pr hpr
      rw [← hpru]
      exact List.rel_of_pairwise_cons HT hmem

/-- C4: for every timestamp-sorted page group and non-decreasing snapshot
instant list, the snapshot timestamps of the pairs emitted by the sweep
for that page form a non-decreasing sequence. -/
theorem runSweep_snapshot_timestamps_monotone
    (timestamps : List Nat) (group : List Page)
    (HS : List.Pairwise (fun a b => revTs a ≤ revTs b) group)
    (HT : List.Pairwise (· ≤ ·) timestamps) :
    List.Pairwise (· ≤ ·)
      (((runSweep timestamps group).2.out).map Prod.snd) := by
  rw [runSweep_out_spec timestamps group HS HT]
  exact pairwise_snd_snapshotPairs group timestamps HT

/-- C4 (witness): the monotonicity statement applied to the Scenario A
group and instants. -/
theorem runSweep_snapshot_timestamps_monotone_witness :
    List.Pairwise (fun a b => revTs a ≤ revTs b) [pageA1, pageA2] ∧
    List.Pairwise (· ≤ ·) scenarioTimestamps ∧
    List.Pairwise (· ≤ ·)
      (((runSweep scenarioTimestamps [pageA1, pageA2]).2.out).map Prod.snd) :=
  ⟨by decide, by decide,
    runSweep_snapshot_timestamps_monotone scenarioTimestamps [pageA1, pageA2]
      (by decide) (by decide)⟩

/-- No specification pair carries an instant outside the supplied list. -/
theorem snapshotPairs_filter_snd_not_mem (sorted : List Page) (T : List Nat)
    (ts : Nat) (hts : ts ∉ T) :
    (snapshotPairs sorted T).filter (fun pr => pr.2 == ts) = [] := by
  rw [List.filter_eq_nil]
  intro pr hpr
  have hmem : pr.2 ∈ T := snd_mem_of_mem_snapshotPairs sorted T pr hpr
  simp only [beq_iff_eq]
  intro heq
  rw [heq] at hmem
  exact hts hmem

/-- With strictly increasing instants, the specification pairs carrying
the instant ts are exactly the current revision at ts, if any. -/
theorem snapshotPairs_filter_snd (sorted : List Page) :
    ∀ T : List Nat, List.Pairwise (· < ·) T → ∀ ts : Nat, ts ∈ T →
      (snapshotPairs sorted T).filter (fun pr => pr.2 == ts)
        = ((currentRev sorted ts).map (fun p => (p, ts))).toList := by
  intro T
  induction T with
  | nil => intro _ ts hts; cases hts
  | cons t ts' ih =>
    intro HT ts hts
    rcases List.mem_cons.mp hts with heq | hmem
    · subst heq
      have hnot : ts ∉ ts' := by
        intro hc
        have := List.rel_of_pairwise_cons HT hc
        omega
      cases hcr : currentRev sorted ts with
      | none =>
        rw [snapshotPairs_cons_none sorted ts ts' hcr]
        rw [snapshotPairs_filter_snd_not_mem sorted ts' ts hnot]
        rfl
      | some p =>
        rw [snapshotPairs_cons_some sorted ts ts' p hcr]
        rw [List.filter_cons]
        rw [if_pos (by simp)]
        rw [snapshotPairs_filter_snd_not_mem sorted ts' ts hnot]
        rfl
    · have hne : t ≠ ts := by
        have := List.rel_of_pairwise_cons HT hmem
        omega
      cases hcr : currentRev sorted t with
      | none =>
        rw [snapshotPairs_cons_none sorted t ts' hcr]
        exact ih HT.of_cons ts hmem
      | some p =>
        rw [snapshotPairs_cons_some sorted t ts' p hcr]
        rw [List.filter_cons]
        rw [if_neg (by simp [hne])]
        exact ih HT.of_cons ts hmem

/-- C1: for every timestamp-sorted page group handed to the sweep and
every instant ts of the strictly increasing instant list: when ts is on or
after the group's earliest revision timestamp, exactly one pair (r, ts) is
emitted, where r belongs to the group, lies at or before ts, and carries
the greatest timestamp at most ts among the group; when ts precedes the
earliest revision timestamp, no pair is emitted at ts. -/
theorem runSweep_exactly_one_current_revision
    (timestamps : List Nat) (group : List Page)
    (HS : List.Pairwise (fun a b => revTs a ≤ revTs b) group)
    (HT : List.Pairwise (· < ·) timestamps)
    (hne : 0 < group.length)
    (ts : Nat) (hts : ts ∈ timestamps) :
    (revTs (group.get ⟨0, hne⟩) ≤ ts →
      ∃ r, ((runSweep timestamps group).2.out.filter
          (fun pr => pr.2 == ts)) = [(r, ts)] ∧
        r ∈ group ∧ revTs r ≤ ts ∧
        ∀ q ∈ group, revTs q ≤ ts → revTs q ≤ revTs r) ∧
    (ts < revTs (group.get ⟨0, hne⟩) →
      (runSweep timestamps group).2.out.filter (fun pr => pr.2 == ts) = []) := by
  rw [runSweep_out_spec timestamps group HS (HT.imp le_of_lt)]
  rw [snapshotPairs_filter_snd group timestamps HT ts hts]
  constructor
  · intro hfirst
    cases hcr : currentRev group ts with
    | none =>
      exfalso
      have hmemf : group.get ⟨0, hne⟩ ∈ group.filter (fun p => revTs p ≤ ts) :=
        List.mem_filter.mpr ⟨List.get_mem group 0 hne, by simpa using hfirst⟩
      have hnil : group.filter (fun p => revTs p ≤ ts) = [] :=
        List.getLast?_eq_none_iff.mp hcr
      rw [hnil] at hmemf
      cases hmemf
    | some r =>
      refine ⟨r, rfl, ?_, ?_, ?_⟩
      · have hrmem : r ∈ group.filter (fun p => revTs p ≤ ts) :=
          List.mem_of_mem_getLast? hcr
        exact List.mem_of_mem_filter hrmem
      · have hrmem : r ∈ group.filter (fun p => revTs p ≤ ts) :=
          List.mem_of_mem_getLast? hcr
        simpa using List.of_mem_filter hrmem
      · intro q hq hqle
        have hqmem : q ∈ group.filter (fun p => revTs p ≤ ts) :=
          List.mem_filter.mpr ⟨hq, by simpa using hqle⟩
        exact sorted_le_getLast (group.filter (fun p => revTs p ≤ ts))
          (HS.sublist (List.filter_sublist group)) r hcr q hqmem
  · intro hbefore
    rw [currentRev_eq_none group HS hne ts hbefore]
    rfl

/-- C1 (witness): the coverage statement applied to the Scenario A group
and the instant 2015-02-01. -/
theorem runSweep_exactly_one_current_revision_witness :
    revTs pageA1 ≤ 20150201 ∧
    ∃ r, ((runSweep scenarioTimestamps [pageA1, pageA2]).2.out.filter
        (fun pr => pr.2 == 20150201)) = [(r, 20150201)] ∧
      r ∈ [pageA1, pageA2] ∧ revTs r ≤ 20150201 ∧
      ∀ q ∈ [pageA1, pageA2], revTs q ≤ 20150201 → revTs q ≤ revTs r :=
  ⟨by decide,
    (runSweep_exactly_one_current_revision scenarioTimestamps [pageA1, pageA2]
      (by decide) (by decide) (by decide) 20150201 (by decide)).1 (by decide)⟩

/-- Every pair the inner loop emits carries a revision satisfying any
property that holds for the outer candidate, the previous revision and
the pairs already emitted. -/
theorem innerLoop_out_mem (sorted : List Page) (page : Page) (ct pt : Nat)
    (P : Page → Prop) :
    ∀ s : SweepState, P page → (∀ q, s.prevpage = some q → P q) →
      (∀ pr ∈ s.out, P pr.1) →
      (∀ pr ∈ (innerLoop sorted page ct pt s).1.out, P pr.1) ∧
      (∀ q, (innerLoop sorted page ct pt s).1.prevpage = some q → P q) := by
  have key : ∀ (n : Nat) (s : SweepState), s.timestamps.length - s.i = n →
      P page → (∀ q, s.prevpage = some q → P q) →
      (∀ pr ∈ s.out, P pr.1) →
      (∀ pr ∈ (innerLoop sorted page ct pt s).1.out, P pr.1) ∧
      (∀ q, (innerLoop sorted page ct pt s).1.prevpage = some q → P q) := by
    intro n
    induction n with
    | zero =>
      intro s hn hP hprevP houtP
      rw [innerLoop_stop sorted page ct pt s (by omega)]
      exact ⟨houtP, hprevP⟩
    | succ n ih =>
      intro s hn hP hprevP houtP
      have h : s.i < s.timestamps.length := by omega
      match hp : s.prevpage with
      | none =>
        by_cases hct : ct > s.timestamps.get ⟨s.i, h⟩
        · rw [innerLoop_none_skip sorted page ct pt s h hp hct]
          exact ih { s with i := s.i + 1 } (by simp; omega) hP
            (by intro q hq; exact hprevP q hq) houtP
        · by_cases hj : s.j + 1 < sorted.length
          · rw [innerLoop_none_break sorted page ct pt s h hp hct hj]
            refine ⟨houtP, ?_⟩
            intro q hq
            have : some page = some q := hq
            cases this
            exact hP
          · rw [innerLoop_none_tail sorted page ct pt s h hp hct hj]
            refine ih _ (by simp; omega) hP ?_ ?_
            · intro q hq
              have : some page = some q := hq
              cases this
              exact hP
            · intro pr hpr
              rcases List.mem_append.mp hpr with hl | hr
              · exact houtP pr hl
              · have : pr = (page, s.timestamps.get ⟨s.i, h⟩) := by simpa using hr
                rw [this]
                exact hP
      | some prev =>
        by_cases hpt : pt > s.timestamps.get ⟨s.i, h⟩
        · rw [innerLoop_some_skip sorted page ct pt s prev h hp hpt]
          exact ih { s with i := s.i + 1 } (by simp; omega) hP
            (by intro q hq; exact hprevP q hq) houtP
        · by_cases hct : ct > s.timestamps.get ⟨s.i, h⟩
          · rw [innerLoop_some_emit sorted page ct pt s prev h hp hpt hct]
            refine ih _ (by simp; omega) hP
              (by intro q hq; exact hprevP q hq) ?_
            intro pr hpr
            rcases List.mem_append.mp hpr with hl | hr
            · exact houtP pr hl
            · have : pr = (prev, s.timestamps.get ⟨s.i, h⟩) := by simpa using hr
              rw [this]
              exact hprevP prev hp
          · by_cases hj : s.j + 1 < sorted.length
            · rw [innerLoop_some_break sorted page ct pt s prev h hp hpt hct hj]
              refine ⟨houtP, ?_⟩
              intro q hq
              have : some page = some q := hq
              cases this
              exact hP
            · rw [innerLoop_some_tail sorted page ct pt s prev h hp hpt hct hj]
              refine ih _ (by simp; omega) hP ?_ ?_
              · intro q hq
                have : some page = some q := hq
                cases this
                exact hP
              · intro pr hpr
                rcases List.mem_append.mp hpr with hl | hr
                · exact houtP pr hl
                · have : pr = (page, s.timestamps.get ⟨s.i, h⟩) := by simpa using hr
                  rw [this]
                  exact hP
  intro s
  exact key (s.timestamps.length - s.i) s rfl

/-- Every pair the outer loop emits carries a revision of the sorted
group, given the previously emitted pairs and previous revision do. -/
theorem outerLoop_out_mem (sorted : List Page) :
    ∀ (n : Nat) (s : SweepState), sorted.length - s.j = n →
      (∀ q, s.prevpage = some q → q ∈ sorted) →
      (∀ pr ∈ s.out, pr.1 ∈ sorted) →
      ∀ pr ∈ (outerLoop sorted s).2.out, pr.1 ∈ sorted := by
  intro n
  induction n with
  | zero =>
    intro s hn _ houtP
    rw [outerLoop_stop sorted s (by omega)]
    exact houtP
  | succ n ih =>
    intro s hn hprevP houtP
    have hj : s.j < sorted.length := by omega
    have hmem := innerLoop_out_mem sorted (sorted.get ⟨s.j, hj⟩)
      (sorted.get ⟨s.j, hj⟩).revision.timestamp (prevTs s.prevpage)
      (fun p => p ∈ sorted) s (List.get_mem sorted s.j hj) hprevP houtP
    have hbasic := innerLoop_basic sorted (sorted.get ⟨s.j, hj⟩)
      (sorted.get ⟨s.j, hj⟩).revision.timestamp (prevTs s.prevpage) s
    cases hb : (innerLoop sorted (sorted.get ⟨s.j, hj⟩)
        (sorted.get ⟨s.j, hj⟩).revision.timestamp (prevTs s.prevpage) s).2 with
    | true =>
      rw [outerLoop_broke sorted s hj hb]
      have hjr := (hbasic.2.2.1 hb).1
      exact ih _ (by omega) hmem.2 hmem.1
    | false =>
      by_cases hlt : (innerLoop sorted (sorted.get ⟨s.j, hj⟩)
          (sorted.get ⟨s.j, hj⟩).revision.timestamp
          (prevTs s.prevpage) s).1.j < sorted.length
      · rw [outerLoop_hang sorted s hj hb hlt]
        exact hmem.1
      · rw [outerLoop_done sorted s hj hb hlt]
        exact hmem.1

/-- Every pair a sweep emits carries a revision of the swept group. -/
theorem runSweep_out_mem (timestamps : List Nat) (sorted : List Page) :
    ∀ pr ∈ (runSweep timestamps sorted).2.out, pr.1 ∈ sorted := by
  unfold runSweep
  exact outerLoop_out_mem sorted sorted.length
    { timestamps := timestamps, i := 0, j := 0, prevpage := none, out := [] }
    rfl (by intro q hq; cases hq) (by intro pr hpr; cases hpr)

/-- Reader step on the first parsed row: append to the open group. -/
theorem readerStep_none (s : ReaderState) (pg : Page)
    (h : s.dump_prevpage = none) :
    readerStep s pg
      = (true, { s with dump_prevpage := some pg,
                        page_revisions := s.page_revisions ++ [pg] }) := by
  unfold readerStep
  rw [h]

/-- Reader step on a row of the same page: append to the open group. -/
theorem readerStep_same (s : ReaderState) (pg prev : Page)
    (h : s.dump_prevpage = some prev) (hid : prev.id = pg.id) :
    readerStep s pg
      = (true, { s with dump_prevpage := some pg,
                        page_revisions := s.page_revisions ++ [pg] }) := by
  unfold readerStep
  rw [h]
  simp only [if_pos hid]

/-- Reader step at a page boundary: sort and sweep the open group, then
open a fresh group with the current row. -/
theorem readerStep_boundary (s : ReaderState) (pg prev : Page)
    (h : s.dump_prevpage = some prev) (hid : ¬ prev.id = pg.id) :
    readerStep s pg
      = ((runSweep s.timestamps (sortByTs s.page_revisions)).1,
         { timestamps := (runSweep s.timestamps (sortByTs s.page_revisions)).2.timestamps,
           dump_prevpage := some pg,
           page_revisions := [pg],
           groups := s.groups ++ [sortByTs s.page_revisions],
           out := s.out ++ (runSweep s.timestamps (sortByTs s.page_revisions)).2.out }) := by
  unfold readerStep
  rw [h]
  simp only [if_neg hid]

/-- After any reader step, the open group and the handed groups together
still hold exactly the rows seen, the previously handed groups are kept,
and every emitted pair's revision comes from the old pairs or a handed
group. -/
theorem readerStep_spec9 (s : ReaderState) (pg : Page) :
    ((readerStep s pg).2.groups.flatten ++ (readerStep s pg).2.page_revisions).Perm
      (s.groups.flatten ++ s.page_revisions ++ [pg]) ∧
    (∀ g ∈ s.groups, g ∈ (readerStep s pg).2.groups) ∧
    (∀ pr ∈ (readerStep s pg).2.out,
      pr ∈ s.out ∨ pr.1 ∈ (readerStep s pg).2.groups.flatten) := by
  match hp : s.dump_prevpage with
  | none =>
    rw [readerStep_none s pg hp]
    refine ⟨?_, ?_, ?_⟩
    · show (s.groups.flatten ++ (s.page_revisions ++ [pg])).Perm
        (s.groups.flatten ++ s.page_revisions ++ [pg])
      simp only [List.append_assoc]
      exact List.Perm.refl _
    · intro g hg; exact hg
    · intro pr hpr; exact Or.inl hpr
  | some prev =>
    by_cases hid : prev.id = pg.id
    · rw [readerStep_same s pg prev hp hid]
      refine ⟨?_, ?_, ?_⟩
      · show (s.groups.flatten ++ (s.page_revisions ++ [pg])).Perm
          (s.groups.flatten ++ s.page_revisions ++ [pg])
        simp only [List.append_assoc]
        exact List.Perm.refl _
      · intro g hg; exact hg
      · intro pr hpr; exact Or.inl hpr
    · rw [readerStep_boundary s pg prev hp hid]
      refine ⟨?_, ?_, ?_⟩
      · show ((s.groups ++ [sortByTs s.page_revisions]).flatten ++ [pg]).Perm
          (s.groups.flatten ++ s.page_revisions ++ [pg])
        rw [List.flatten_append]
        have hperm : (sortByTs s.page_revisions).Perm s.page_revisions :=
          sortByTs_perm s.page_revisions
        have hj : ([sortByTs s.page_revisions] : List (List Page)).flatten
            = sortByTs s.page_revisions := by simp
        rw [hj]
        exact ((hperm.append_left s.groups.flatten).append_right [pg])
      · intro g hg
        exact List.mem_append_left _ hg
      · intro pr hpr
        rcases List.mem_append.mp hpr with hl | hr
        · exact Or.inl hl
        · refine Or.inr ?_
          have hmem : pr.1 ∈ sortByTs s.page_revisions :=
            runSweep_out_mem s.timestamps (sortByTs s.page_revisions) pr hr
          show pr.1 ∈ ((s.groups ++ [sortByTs s.page_revisions])
            : List (List Page)).flatten
          rw [List.flatten_append]
          refine List.mem_append_right _ ?_
          simpa using hmem

/-- Elements of a flattened group list survive any extension of the group
list. -/
theorem flatten_mono (A B : List (List Page)) (h : ∀ g ∈ A, g ∈ B) :
    ∀ x ∈ A.flatten, x ∈ B.flatten := by
  intro x hx
  obtain ⟨g, hgA, hxg⟩ := List.mem_flatten.mp hx
  exact List.mem_flatten.mpr ⟨g, h g hgA, hxg⟩

/-- The trailing end-of-stream step hands the open group to the sweep and
discards the duplicate re-read row: the handed groups gain exactly the
open group, previously handed groups are kept, and every emitted pair's
revision comes from the old pairs or a handed group. -/
theorem readerFinal_spec9 (s : ReaderState) (pg : Page) :
    ((readerFinal s pg).2.groups.flatten).Perm
      (s.groups.flatten ++ s.page_revisions) ∧
    (∀ g ∈ s.groups, g ∈ (readerFinal s pg).2.groups) ∧
    (∀ pr ∈ (readerFinal s pg).2.out,
      pr ∈ s.out ∨ pr.1 ∈ (readerFinal s pg).2.groups.flatten) := by
  refine ⟨?_, ?_, ?_⟩
  · show ((s.groups ++ [sortByTs s.page_revisions]).flatten).Perm
      (s.groups.flatten ++ s.page_revisions)
    rw [List.flatten_append]
    have hj : ([sortByTs s.page_revisions] : List (List Page)).flatten
        = sortByTs s.page_revisions := by simp
    rw [hj]
    exact (sortByTs_perm s.page_revisions).append_left s.groups.flatten
  · intro g hg
    exact List.mem_append_left _ hg
  · intro pr hpr
    rcases List.mem_append.mp hpr with hl | hr
    · exact Or.inl hl
    · refine Or.inr ?_
      have hmem : pr.1 ∈ sortByTs s.page_revisions :=
        runSweep_out_mem s.timestamps (sortByTs s.page_revisions) pr hr
      show pr.1 ∈ ((s.groups ++ [sortByTs s.page_revisions])
        : List (List Page)).flatten
      rw [List.flatten_append]
      refine List.mem_append_right _ ?_
      simpa using hmem

/-- When the reader loop terminates, the groups it handed to the sweep
hold, between them, exactly the well-formed rows of the input together
with what was already buffered, previously handed groups are kept, and
every emitted pair's revision comes from the old pairs or a handed
group. -/
theorem readerLoop_spec9 :
    ∀ (dump : List (Option Page)) (s : ReaderState),
      (readerLoop s dump).1 = true →
      ((readerLoop s dump).2.groups.flatten).Perm
        (s.groups.flatten ++ s.page_revisions ++ dump.filterMap id) ∧
      (∀ g ∈ s.groups, g ∈ (readerLoop s dump).2.groups) ∧
      (∀ pr ∈ (readerLoop s dump).2.out,
        pr ∈ s.out ∨ pr.1 ∈ (readerLoop s dump).2.groups.flatten) := by
  intro dump
  induction dump with
  | nil =>
    intro s hterm
    exact Bool.noConfusion hterm
  | cons l rest ih =>
    intro s hterm
    match rest, ih with
    | [], _ =>
      match l, hterm with
      | none, hterm => exact Bool.noConfusion hterm
      | some pg, hterm =>
        have hshape : readerLoop s [some pg]
            = if (readerStep s pg).1 then readerFinal (readerStep s pg).2 pg
              else (false, (readerStep s pg).2) := rfl
        by_cases hr1 : (readerStep s pg).1
        · rw [hshape, if_pos hr1]
          obtain ⟨sperm, sgrp, sout⟩ := readerStep_spec9 s pg
          obtain ⟨fperm, fgrp, fout⟩ := readerFinal_spec9 (readerStep s pg).2 pg
          refine ⟨?_, ?_, ?_⟩
          · exact fperm.trans sperm
          · intro g hg
            exact fgrp g (sgrp g hg)
          · intro pr hpr
            rcases fout pr hpr with hro | hflat
            · rcases sout pr hro with hso | hsflat
              · exact Or.inl hso
              · refine Or.inr ?_
                exact flatten_mono (readerStep s pg).2.groups
                  (readerFinal (readerStep s pg).2 pg).2.groups fgrp pr.1 hsflat
            · exact Or.inr hflat
        · rw [hshape, if_neg hr1] at hterm
          exact Bool.noConfusion hterm
    | l₂ :: rest₂, ih =>
      match l, hterm with
      | none, hterm =>
        have hshape : readerLoop s (none :: l₂ :: rest₂)
            = readerLoop s (l₂ :: rest₂) := rfl
        rw [hshape]
        exact ih s hterm
      | some pg, hterm =>
        have hshape : readerLoop s (some pg :: l₂ :: rest₂)
            = if (readerStep s pg).1 then readerLoop (readerStep s pg).2 (l₂ :: rest₂)
              else (false, (readerStep s pg).2) := rfl
        by_cases hr1 : (readerStep s pg).1
        · rw [hshape, if_pos hr1] at hterm ⊢
          obtain ⟨sperm, sgrp, sout⟩ := readerStep_spec9 s pg
          obtain ⟨rperm, rgrp, rout⟩ := ih (readerStep s pg).2 hterm
          refine ⟨?_, ?_, ?_⟩
          · refine (rperm.trans
              ((sperm.append_right ((l₂ :: rest₂).filterMap id)))).trans ?_
            show ((s.groups.flatten ++ s.page_revisions ++ [pg])
                ++ (l₂ :: rest₂).filterMap id).Perm
              (s.groups.flatten ++ s.page_revisions
                ++ (some pg :: l₂ :: rest₂).filterMap id)
            simp only [List.append_assoc, List.singleton_append,
              List.filterMap_cons, id]
            exact List.Perm.refl _
          · intro g hg
            exact rgrp g (sgrp g hg)
          · intro pr hpr
            rcases rout pr hpr with hro | hflat
            · rcases sout pr hro with hso | hsflat
              · exact Or.inl hso
              · refine Or.inr ?_
                exact flatten_mono (readerStep s pg).2.groups
                  (readerLoop (readerStep s pg).2 (l₂ :: rest₂)).2.groups
                  rgrp pr.1 hsflat
            · exact Or.inr hflat
        · rw [hshape, if_neg hr1] at hterm
          exact Bool.noConfusion hterm

/-- C9 (counterexample): a well-formed row can fail to reach any group:
with a malformed final row the reader loops forever in the end-of-stream
re-read, so the buffered first row is never handed to the sweep and the
list of handed groups stays empty, refuting the unconditional claim. -/
theorem process_lines_row_never_grouped :
    ([some pageA1, none] : List (Option Page)).filterMap id = [pageA1] ∧
    (process_lines_state [some pageA1, none] scenarioTimestamps false).2.groups
      = [] ∧
    (process_lines_state [some pageA1, none] scenarioTimestamps false).1
      = false :=
  ⟨rfl, rfl, rfl⟩

/-- C9 (amended): when process_lines terminates, every well-formed input
row contributes exactly one revision to exactly one page group handed to
the sweep (the handed groups are, between them, a permutation of the
parsed rows, the trailing re-read of the final row included exactly once),
and every emitted pair's revision belongs to some handed group, so no
end-of-stream sentinel value ever appears in an emitted pair. -/
theorem process_lines_rows_partition_into_groups
    (dump : List (Option Page)) (timestamps : List Nat) (b : Bool)
    (hterm : (process_lines_state dump timestamps b).1 = true) :
    ((process_lines_state dump timestamps b).2.groups.flatten).Perm
      (dump.filterMap id) ∧
    ∀ pr ∈ (process_lines_state dump timestamps b).2.out,
      pr.1 ∈ (process_lines_state dump timestamps b).2.groups.flatten := by
  obtain ⟨hperm, _, hout⟩ := readerLoop_spec9 dump
    { timestamps := timestamps, dump_prevpage := none,
      page_revisions := [], groups := [], out := [] } hterm
  refine ⟨?_, ?_⟩
  · simpa using hperm
  · intro pr hpr
    rcases hout pr hpr with hso | hflat
    · cases hso
    · exact hflat

/-- C9 (witness): the partition statement applied to the Scenario A
input. -/
theorem process_lines_rows_partition_into_groups_witness :
    (process_lines_state [some pageA1, some pageA2] scenarioTimestamps false).1
      = true ∧
    ((process_lines_state [some pageA1, some pageA2] scenarioTimestamps
        false).2.groups.flatten).Perm
      (([some pageA1, some pageA2] : List (Option Page)).filterMap id) :=
  ⟨by decide,
    (process_lines_rows_partition_into_groups [some pageA1, some pageA2]
      scenarioTimestamps false (by decide)).1⟩
